import Mathlib

/-!
Verification of the reactphysics3d broad-phase `PairManager`
(src/collision/broadphase/PairManager.h).

The header translates the inline member functions of `PairManager` and
`BodyPair` into pure Lean functions over an explicit state record.  C++
pointers into the dense pair array become integer indices (an `Option Nat`
models a nullable pointer or the `INVALID_INDEX` sentinel); the lazily
allocated hash table becomes `Option (List (Option Nat))`.  Machine
integers are `Nat` with explicit reduction modulo `2 ^ 32` where the C++
computation can wrap.  Collision bodies are represented by their integer
IDs, the only attribute the pair manager ever reads.

Member functions whose bodies are only declared in the header
(`lookForAPair`, `addPair`, `removePair`, `reallocatePairs`, the
constructor) are modelled from the specification and are marked as such in
their doc comments.
-/

namespace PairMgr

/-- Two to the thirty-second power, the modulus of the 32-bit machine
integers used throughout the C++ code. -/
def mod32 : Nat := 4294967296

/-- Bitwise complement of a 32-bit pattern, as used by the C++ operator
`~` on `int` in `computeHash32Bits`. -/
def not32 (k : Nat) : Nat := 4294967295 - (k % mod32)

/-- Left shift of a 32-bit pattern, truncated to 32 bits. -/
def shl32 (k n : Nat) : Nat := ((k % mod32) <<< n) % mod32

/-- Arithmetic (sign-replicating) right shift of a 32-bit two's-complement
pattern, the behaviour of `>>` on a negative `int` on the targeted
platforms. -/
def sar32 (k n : Nat) : Nat :=
  if k % mod32 < 2147483648 then (k % mod32) >>> n
  else ((k % mod32) >>> n) + (mod32 - mod32 >>> n)

/-- Addition of two 32-bit patterns with wrap-around. -/
def add32 (a b : Nat) : Nat := (a + b) % mod32

/-- Translation of `PairManager::computeHash32Bits` (Thomas Wang 32-bit
mix): six shift/XOR/add rounds on a 32-bit two's-complement pattern. -/
def computeHash32Bits (key : Nat) : Nat :=
  let k0 := key % mod32
  let k1 := add32 k0 (not32 (shl32 k0 15))
  let k2 := k1 ^^^ sar32 k1 10
  let k3 := add32 k2 (shl32 k2 3)
  let k4 := k3 ^^^ sar32 k3 6
  let k5 := add32 k4 (not32 (shl32 k4 11))
  k5 ^^^ sar32 k5 16

/-- Translation of the 32-bit key combination `id1 | (id2 << 16)` performed
by `PairManager::computeHashBodies` before the avalanche rounds. -/
def combineKey (id1 id2 : Nat) : Nat := (id1 % mod32) ||| shl32 id2 16

/-- Translation of `PairManager::computeHashBodies`. -/
def computeHashBodies (id1 id2 : Nat) : Nat := computeHash32Bits (combineKey id1 id2)

/-- Translation of `PairManager::computeNextPowerOfTwo`: the SWAR
bit-smearing cascade followed by an increment.  Note the C++ code does not
decrement its argument first. -/
def computeNextPowerOfTwo (number : Nat) : Nat :=
  let n1 := number ||| (number >>> 1)
  let n2 := n1 ||| (n1 >>> 2)
  let n3 := n2 ||| (n2 >>> 4)
  let n4 := n3 ||| (n3 >>> 8)
  let n5 := n4 ||| (n4 >>> 16)
  n5 + 1

/-- Translation of `PairManager::sortIDs`, returning the two IDs with the
smaller one first instead of swapping by reference. -/
def sortIDs (id1 id2 : Nat) : Nat × Nat :=
  if id1 > id2 then (id2, id1) else (id1, id2)

/-- Translation of `BodyPair::getBodiesIndexPair`: the ordered index pair
of the two bodies, smaller ID first.  Bodies are represented by their
IDs. -/
def getBodiesIndexPair (id1 id2 : Nat) : Nat × Nat :=
  if id1 < id2 then (id1, id2) else (id2, id1)

/-- Translation of `PairManager::isDifferentPair`: true when the stored
pair `pair1` differs from the (normalized) query IDs. -/
def isDifferentPair (pair1 : Nat × Nat) (pair2ID1 pair2ID2 : Nat) : Bool :=
  pair2ID1 != pair1.1 || pair2ID2 != pair1.2

/-- State of a `PairManager`.  Field names follow the C++ members.  The
dense pair store and the parallel chain-link array are modelled by lists
holding exactly the `mNbOverlappingPairs` valid entries (the C++ arrays
over-allocate to `mNbElementsHashTable` slots, but the slots at index
`mNbOverlappingPairs` and beyond hold garbage and are never read).  A pair
record is the ordered pair of its two body IDs. -/
structure PMState where
  mNbElementsHashTable : Nat
  mHashMask : Nat
  mNbOverlappingPairs : Nat
  mHashTable : Option (List (Option Nat))
  mOffsetNextPair : List (Option Nat)
  mOverlappingPairs : List (Nat × Nat)
deriving Repr, DecidableEq

/-- Modelled from the spec: the constructor is not part of the reviewed
header; the bucket index is allocated lazily on first insertion, so the
fresh manager holds no table, no pairs and zero capacity. -/
def initState : PMState :=
  { mNbElementsHashTable := 0, mHashMask := 0, mNbOverlappingPairs := 0,
    mHashTable := none, mOffsetNextPair := [], mOverlappingPairs := [] }

/-- Walk of one hash-bucket chain, mirroring the loop of `lookForAPair`:
follow `next` links starting at `off`, comparing each candidate record
against the normalized query IDs with `isDifferentPair`, and return the
index of the first exact match.  Fuel bounds the walk so the function is
total; any fuel at least the chain length gives the loop's behaviour. -/
def chainWalk (pairs : List (Nat × Nat)) (next : List (Option Nat))
    (id1 id2 : Nat) : Nat → Option Nat → Option Nat
  | _, none => none
  | 0, some _ => none
  | fuel + 1, some off =>
    match pairs[off]? with
    | none => none
    | some p =>
      if isDifferentPair p id1 id2 then
        chainWalk pairs next id1 id2 fuel (next[off]?.join)
      else some off

/-- Modelled from the spec: `PairManager::lookForAPair` is declared but its
body is not part of the reviewed header.  Per the spec it walks the chain
starting at the bucket head `mHashTable[hashValue]` comparing each
candidate's normalized IDs and returns the first exact match or "not
found". -/
def lookForAPair (s : PMState) (id1 id2 : Nat) (hashValue : Nat) : Option Nat :=
  match s.mHashTable with
  | none => none
  | some t =>
    chainWalk s.mOverlappingPairs s.mOffsetNextPair id1 id2
      (s.mNbOverlappingPairs + 1) (t[hashValue]?.join)

/-- Translation of `PairManager::findPair`.  The outer `Option` models
whether the C++ function returns a value at all: the body returns `NULL`
when the hash table was never allocated, but on the other path it computes
`lookForAPair(id1, id2, hashValue)` without returning the result and falls
off the end of the non-void function, so no value is returned (`none`). -/
def findPair (s : PMState) (id1 id2 : Nat) : Option (Option Nat) :=
  match s.mHashTable with
  | none => some none
  | some _ =>
    let ids := sortIDs id1 id2
    let hashValue := computeHashBodies ids.1 ids.2 &&& s.mHashMask
    let _discarded := lookForAPair s ids.1 ids.2 hashValue
    none

/-- Translation of `PairManager::findPairWithHashValue` (this overload does
return its lookup). -/
def findPairWithHashValue (s : PMState) (id1 id2 : Nat) (hashValue : Nat) :
    Option Nat :=
  match s.mHashTable with
  | none => none
  | some _ => lookForAPair s id1 id2 hashValue

/-- Lookup pipeline of `findPair` as specified (sort the IDs, hash, mask,
walk the bucket chain, return the first match).  This is the value
`findPair` computes and, through the defect flagged in the spec, fails to
return on its allocated-table path. -/
def findPairIntended (s : PMState) (id1 id2 : Nat) : Option Nat :=
  let ids := sortIDs id1 id2
  findPairWithHashValue s ids.1 ids.2 (computeHashBodies ids.1 ids.2 &&& s.mHashMask)

/-- Translation of `PairManager::getNbOverlappingPairs`. -/
def getNbOverlappingPairs (s : PMState) : Nat := s.mNbOverlappingPairs

/-- Translation of `PairManager::beginOverlappingPairsPointer`: the address
of slot 0 of the dense pair array, modelled as a nullable slot index
(`some` of the slot; `none` would be a null pointer, which the function
never produces). -/
def beginOverlappingPairsPointer (s : PMState) : Option Nat := some 0

/-- Translation of `PairManager::endOverlappingPairsPointer`: the address
of the last overlapping pair when there is one, otherwise the address of
slot 0. -/
def endOverlappingPairsPointer (s : PMState) : Option Nat :=
  if s.mNbOverlappingPairs > 0 then some (s.mNbOverlappingPairs - 1) else some 0

/-- Bucket of a stored pair record: the avalanche hash of its two IDs
masked into the table, exactly the expression
`computeHashBodies(id1, id2) & mHashMask` of the C++ code. -/
def bucketOf (mask : Nat) (p : Nat × Nat) : Nat :=
  computeHashBodies p.1 p.2 &&& mask

/-- Head insertion of dense-store entry `i` into its bucket chain: the
entry's `next` link receives the former bucket head and the bucket head
becomes `i`.  This is the linking step the spec prescribes both for
`addPair` and for the full rehash of `reallocatePairs`. -/
def insertHead (mask : Nat) (pairs : List (Nat × Nat))
    (tn : List (Option Nat) × List (Option Nat)) (i : Nat) :
    List (Option Nat) × List (Option Nat) :=
  match pairs[i]? with
  | none => tn
  | some p =>
    let b := bucketOf mask p
    (tn.1.set b (some i), tn.2.set i (tn.1[b]?.join))

/-- Modelled from the spec: the full rehash performed by
`reallocatePairs`, whose body is not part of the reviewed header.  A fresh
bucket index of `sz` sentinel entries and fresh chain links are rebuilt by
head-inserting every dense-store entry in index order. -/
def rehashAll (mask sz : Nat) (pairs : List (Nat × Nat)) :
    List (Option Nat) × List (Option Nat) :=
  (List.range pairs.length).foldl (insertHead mask pairs)
    (List.replicate sz (none : Option Nat), List.replicate pairs.length (none : Option Nat))

/-- Modelled from the spec: `PairManager::reallocatePairs` reallocates the
arrays to the current `mNbElementsHashTable` capacity and fully rehashes
the bucket index and chain links for every existing entry. -/
def reallocatePairs (s : PMState) : PMState :=
  let tn := rehashAll s.mHashMask s.mNbElementsHashTable s.mOverlappingPairs
  { s with mHashTable := some tn.1, mOffsetNextPair := tn.2 }

/-- Translation of `PairManager::shrinkMemory`: recompute the wanted
capacity with `computeNextPowerOfTwo` from the current number of
overlapping pairs; if the capacity already equals it, do nothing, else
install the new capacity and mask and reallocate. -/
def shrinkMemory (s : PMState) : PMState :=
  let correctNbElementsHashTable := computeNextPowerOfTwo s.mNbOverlappingPairs
  if s.mNbElementsHashTable = correctNbElementsHashTable then s
  else
    reallocatePairs { s with
      mNbElementsHashTable := correctNbElementsHashTable,
      mHashMask := correctNbElementsHashTable - 1 }

/-- Modelled from the spec: `PairManager::addPair`, whose body is not part
of the reviewed header.  Normalize the IDs; if an equal pair already exists
return it unchanged; otherwise ensure capacity (growing to the smallest
power of two at least `count + 1` — which is `computeNextPowerOfTwo count`
— and fully rehashing when the capacity changes, which also performs the
lazy first allocation), append the canonically ordered record at position
`count`, link it as the new head of its bucket chain, and increment
`count`.  The "pair added" callback has no observable effect on the
structure and is not modelled.  Returns the state together with the index
of the record for the pair. -/
def addPair (s : PMState) (idA idB : Nat) : PMState × Option Nat :=
  let ids := sortIDs idA idB
  match findPairIntended s ids.1 ids.2 with
  | some i => (s, some i)
  | none =>
    let s1 :=
      if s.mNbOverlappingPairs ≥ s.mNbElementsHashTable ∨ s.mHashTable = none then
        let cap := computeNextPowerOfTwo s.mNbOverlappingPairs
        reallocatePairs { s with mNbElementsHashTable := cap, mHashMask := cap - 1 }
      else s
    match s1.mHashTable with
    | none => (s1, none)
    | some t =>
      let b := bucketOf s1.mHashMask ids
      let count := s1.mNbOverlappingPairs
      ({ s1 with
          mOverlappingPairs := s1.mOverlappingPairs ++ [ids],
          mOffsetNextPair := s1.mOffsetNextPair ++ [t[b]?.join],
          mHashTable := some (t.set b (some count)),
          mNbOverlappingPairs := count + 1 }, some count)

/-- Walk of one bucket chain that also tracks the predecessor link,
mirroring the removal traversal the spec describes: return the index of
the first record matching the normalized query IDs together with its
predecessor in the chain (`none` when the match is the bucket head and the
walk started with `pred = none`). -/
def chainFindPred (pairs : List (Nat × Nat)) (next : List (Option Nat))
    (id1 id2 : Nat) : Nat → Option Nat → Option Nat → Option (Nat × Option Nat)
  | _, none, _ => none
  | 0, some _, _ => none
  | fuel + 1, some off, pred =>
    match pairs[off]? with
    | none => none
    | some p =>
      if isDifferentPair p id1 id2 then
        chainFindPred pairs next id1 id2 fuel (next[off]?.join) (some off)
      else some (off, pred)

/-- Walk of one bucket chain looking for the entry whose `next` link is
`target`; used to retarget the single chain reference to the old last slot
when compaction relocates the last record. -/
def chainFindPrevOf (next : List (Option Nat)) (target : Nat) :
    Nat → Option Nat → Option Nat
  | _, none => none
  | 0, some _ => none
  | fuel + 1, some off =>
    if next[off]?.join = some target then some off
    else chainFindPrevOf next target fuel (next[off]?.join)

/-- Retargeting step of the compaction: in bucket `b2`, the unique
reference to dense-store slot `lastIdx` (either the bucket head or some
entry's `next` link) is redirected to `newIdx`. -/
def retarget (t next : List (Option Nat)) (b2 lastIdx newIdx fuel : Nat) :
    List (Option Nat) × List (Option Nat) :=
  if t[b2]?.join = some lastIdx then (t.set b2 (some newIdx), next)
  else
    match chainFindPrevOf next lastIdx fuel (t[b2]?.join) with
    | none => (t, next)
    | some j => (t, next.set j (some newIdx))

/-- Modelled from the spec: `PairManager::removePair`, whose body is not
part of the reviewed header.  Normalize the IDs, locate the record via a
chain traversal tracking the predecessor link, and return `false` without
touching the state when it is absent.  Otherwise splice the entry out of
its chain (the predecessor's `next`, or the bucket head, becomes the
entry's `next`), then keep the dense store gapless: the last record is
moved into the vacated slot (unless the vacated slot was the last), the
single chain reference to the old last slot is retargeted to the new slot
after recomputing that record's own bucket, and `count` is decremented.
Shrinking the allocation afterwards is a policy choice the spec leaves
open and is not performed here; the "pair removed" callback has no
observable effect on the structure and is not modelled. -/
def removePair (s : PMState) (idA idB : Nat) : PMState × Bool :=
  let ids := sortIDs idA idB
  match s.mHashTable with
  | none => (s, false)
  | some t =>
    let b := bucketOf s.mHashMask ids
    match chainFindPred s.mOverlappingPairs s.mOffsetNextPair ids.1 ids.2
        (s.mNbOverlappingPairs + 1) (t[b]?.join) none with
    | none => (s, false)
    | some ip =>
      let i := ip.1
      let nx := s.mOffsetNextPair
      let t1 := match ip.2 with
        | none => t.set b (nx[i]?.join)
        | some _ => t
      let nx1 := match ip.2 with
        | none => nx
        | some pr => nx.set pr (nx[i]?.join)
      let lastIdx := s.mNbOverlappingPairs - 1
      if i = lastIdx then
        ({ s with mHashTable := some t1,
                  mOffsetNextPair := nx1.take lastIdx,
                  mOverlappingPairs := s.mOverlappingPairs.take lastIdx,
                  mNbOverlappingPairs := lastIdx }, true)
      else
        match s.mOverlappingPairs[lastIdx]? with
        | none => (s, false)
        | some pLast =>
          let b2 := bucketOf s.mHashMask pLast
          let tn2 := retarget t1 nx1 b2 lastIdx i (s.mNbOverlappingPairs + 1)
          ({ s with mHashTable := some tn2.1,
                    mOffsetNextPair := (tn2.2.set i (nx1[lastIdx]?.join)).take lastIdx,
                    mOverlappingPairs := (s.mOverlappingPairs.set i pLast).take lastIdx,
                    mNbOverlappingPairs := lastIdx }, true)

/-- Index list visited when a consumer iterates from the begin pointer
through the end pointer inclusively, the convention under which the two
pointers of `PairManager` delimit the dense store. -/
def inclusiveIter (s : PMState) : List Nat :=
  match beginOverlappingPairsPointer s, endOverlappingPairsPointer s with
  | some b, some e => List.range' b (e + 1 - b)
  | _, _ => []

/-- Concrete state holding the single pair (1, 2), as produced by the
first insertion into a fresh manager. -/
def onePairState : PMState :=
  { mNbElementsHashTable := 1, mHashMask := 0, mNbOverlappingPairs := 1,
    mHashTable := some [some 0], mOffsetNextPair := [none],
    mOverlappingPairs := [(1, 2)] }

/-- Predicate: `c` is the smallest power of two greater than or equal to
`n`. -/
def isSmallestPow2GE (c n : Nat) : Prop :=
  (∃ k, c = 2 ^ k) ∧ n ≤ c ∧ ∀ m, (∃ k, m = 2 ^ k) → n ≤ m → c ≤ m

/-- Claim C7: the assertion `indexPair.first != indexPair.second` of
`BodyPair::getBodiesIndexPair` holds for every pair of distinct body IDs
and is violated exactly when the two IDs are equal. -/
theorem getBodiesIndexPair_assertion (id1 id2 : Nat) :
    ((getBodiesIndexPair id1 id2).1 ≠ (getBodiesIndexPair id1 id2).2) ↔ id1 ≠ id2 := by
  unfold getBodiesIndexPair
  split <;> simp <;> omega

/-- Claim C8: when the hash table has never been allocated, `findPair`
returns NULL immediately (a returned value of `some none` is a returned
null pointer), without walking any chain; the function is const and the
state is untouched. -/
theorem findPair_unallocated_table (s : PMState) (id1 id2 : Nat)
    (h : s.mHashTable = none) : findPair s id1 id2 = some none := by
  unfold findPair
  rw [h]

/-- Witness for claim C8 at the fresh manager state. -/
theorem findPair_unallocated_table_witness :
    initState.mHashTable = none ∧ findPair initState 5 7 = some none :=
  ⟨rfl, findPair_unallocated_table initState 5 7 rfl⟩

/-- Claim C9: with zero overlapping pairs, `endOverlappingPairsPointer`
returns the address of slot 0 of the pair array — the same pointer the
begin pointer returns — and not a null pointer (`some 0`, never
`none`). -/
theorem endPointer_empty_is_begin (s : PMState) (h : s.mNbOverlappingPairs = 0) :
    endOverlappingPairsPointer s = beginOverlappingPairsPointer s ∧
    endOverlappingPairsPointer s = some 0 := by
  unfold endOverlappingPairsPointer beginOverlappingPairsPointer
  rw [h]
  simp

/-- Witness for claim C9 at the fresh manager state. -/
theorem endPointer_empty_is_begin_witness :
    initState.mNbOverlappingPairs = 0 ∧
    (endOverlappingPairsPointer initState = beginOverlappingPairsPointer initState ∧
     endOverlappingPairsPointer initState = some 0) :=
  ⟨rfl, endPointer_empty_is_begin initState rfl⟩

/-- Claim C3: for distinct IDs, both argument orders are normalized by
`sortIDs` to the same ordered pair, hence hash identically and the whole
lookup pipeline locates the same record. -/
theorem find_symmetric (s : PMState) (a b : Nat) (h : a ≠ b) :
    sortIDs a b = sortIDs b a ∧
    computeHashBodies (sortIDs a b).1 (sortIDs a b).2
      = computeHashBodies (sortIDs b a).1 (sortIDs b a).2 ∧
    findPairIntended s a b = findPairIntended s b a := by
  have hs : sortIDs a b = sortIDs b a := by
    unfold sortIDs
    rcases Nat.lt_trichotomy a b with h1 | h1 | h1
    · rw [if_neg (by omega), if_pos (by omega)]
    · exact absurd h1 h
    · rw [if_pos (by omega), if_neg (by omega)]
  exact ⟨hs, by rw [hs], by unfold findPairIntended; rw [hs]⟩

/-- Witness for claim C3 at a concrete state and ID pair. -/
theorem find_symmetric_witness :
    (1 : Nat) ≠ 2 ∧
    (sortIDs 1 2 = sortIDs 2 1 ∧
     computeHashBodies (sortIDs 1 2).1 (sortIDs 1 2).2
       = computeHashBodies (sortIDs 2 1).1 (sortIDs 2 1).2 ∧
     findPairIntended onePairState 1 2 = findPairIntended onePairState 2 1) :=
  ⟨by decide, find_symmetric onePairState 1 2 (by decide)⟩

/-- Claim C1 (code defect): on the allocated-table path `findPair`
computes the lookup and discards it, returning no value at all (`none` in
the outer option), even though a record matching the query is present and
the lookup pipeline it discards locates it at slot 0. -/
theorem findPair_discards_lookup :
    findPair onePairState 1 2 = none ∧ (1, 2) ∈ onePairState.mOverlappingPairs ∧
    findPairIntended onePairState 1 2 = some 0 :=
  ⟨rfl, by decide, by decide⟩

/-- Claim C5 counterexample: the end pointer is not one-past-the-end of
the valid range `[0, count)`: in a state with one pair it addresses slot
0, not slot `count = 1`. -/
theorem endPointer_not_exclusive :
    endOverlappingPairsPointer onePairState ≠ some onePairState.mNbOverlappingPairs := by
  decide

/-- Claim C5 amended: the begin pointer addresses slot 0 and the end
pointer addresses the last valid record, slot `count - 1`; consequently
iterating from begin through end inclusively visits exactly the indices
`[0, count)` — each valid record once, with no gaps — whenever at least
one pair is stored. -/
theorem iteration_inclusive_range (s : PMState) (h : 0 < s.mNbOverlappingPairs) :
    beginOverlappingPairsPointer s = some 0 ∧
    endOverlappingPairsPointer s = some (s.mNbOverlappingPairs - 1) ∧
    inclusiveIter s = List.range s.mNbOverlappingPairs := by
  unfold inclusiveIter beginOverlappingPairsPointer endOverlappingPairsPointer
  rw [if_pos h]
  refine ⟨rfl, rfl, ?_⟩
  rw [List.range_eq_range']
  show List.range' 0 (s.mNbOverlappingPairs - 1 + 1 - 0) = List.range' 0 s.mNbOverlappingPairs
  congr 1
  omega

/-- Witness for the amended claim C5 at a one-pair state. -/
theorem iteration_inclusive_range_witness :
    0 < onePairState.mNbOverlappingPairs ∧
    (beginOverlappingPairsPointer onePairState = some 0 ∧
     endOverlappingPairsPointer onePairState = some (onePairState.mNbOverlappingPairs - 1) ∧
     inclusiveIter onePairState = List.range onePairState.mNbOverlappingPairs) :=
  ⟨by decide, iteration_inclusive_range onePairState (by decide)⟩

/-- Key bits of the 32-bit combination are disjoint: for a low half below
two to the sixteenth, the bitwise or with a left-shifted high half is
their sum. -/
theorem or_shiftLeft_eq_add {a b : Nat} (ha : a < 65536) :
    a ||| (b <<< 16) = 2 ^ 16 * b + a := by
  apply Nat.eq_of_testBit_eq
  intro j
  rw [Nat.testBit_or, Nat.testBit_shiftLeft, Nat.testBit_mul_pow_two_add b ha j]
  by_cases hj : j < 16
  · have h16 : ¬ (16 ≤ j) := by omega
    simp [hj, h16]
  · have h216 : (65536 : Nat) = 2 ^ 16 := by norm_num
    have hfalse : a.testBit j = false :=
      Nat.testBit_eq_false_of_lt
        (lt_of_lt_of_le (h216 ▸ ha) (Nat.pow_le_pow_right (by omega) (Nat.not_lt.mp hj)))
    simp [hj, hfalse, Nat.not_lt.mp hj]

/-- Claim C10: on IDs below two to the sixteenth, the key combination
`id1 | (id2 << 16)` of `computeHashBodies` is injective: equal keys imply
equal ID pairs. -/
theorem combineKey_injective_16bit (a1 b1 a2 b2 : Nat)
    (ha1 : a1 < 65536) (hb1 : b1 < 65536) (ha2 : a2 < 65536) (hb2 : b2 < 65536)
    (h : combineKey a1 b1 = combineKey a2 b2) : a1 = a2 ∧ b1 = b2 := by
  have e : ∀ a b : Nat, a < 65536 → b < 65536 → combineKey a b = 2 ^ 16 * b + a := by
    intro a b ha hb
    have hsh : b <<< 16 = b * 65536 := Nat.shiftLeft_eq b 16
    unfold combineKey shl32 mod32
    have h1 : a % 4294967296 = a := Nat.mod_eq_of_lt (by omega)
    have h2 : b % 4294967296 = b := Nat.mod_eq_of_lt (by omega)
    rw [h1, h2]
    have h4 : b <<< 16 % 4294967296 = b <<< 16 := Nat.mod_eq_of_lt (by rw [hsh]; omega)
    rw [h4, or_shiftLeft_eq_add ha]
  rw [e a1 b1 ha1 hb1, e a2 b2 ha2 hb2] at h
  have hs1 : a1 = a2 := by omega
  have hs2 : b1 = b2 := by omega
  exact ⟨hs1, hs2⟩

/-- Witness for claim C10 at concrete 16-bit IDs. -/
theorem combineKey_injective_16bit_witness :
    (3 : Nat) < 65536 ∧ (5 : Nat) < 65536 ∧ ((3 : Nat) = 3 ∧ (5 : Nat) = 5) :=
  ⟨by decide, by decide, combineKey_injective_16bit 3 5 3 5 (by decide) (by decide)
    (by decide) (by decide) rfl⟩

/-- Bit test of one smear stage: a bit of `m ||| (m >>> k)` is the
disjunction of the bit and the bit `k` places above. -/
theorem testBit_orShift (m k i : Nat) :
    (m ||| m >>> k).testBit i = (m.testBit i || m.testBit (i + k)) := by
  rw [Nat.testBit_or, Nat.testBit_shiftRight, Nat.add_comm k i]

/-- Interval growth of the smear cascade: if the bits of `m` are the bits
of `n` smeared downwards over distance at most `B`, then after one more
stage with shift `B + 1` they are smeared over distance at most
`2 * B + 1`. -/
theorem orShift_spec {n m B : Nat} (k : Nat) (hk : k = B + 1)
    (H : ∀ j, m.testBit j = true ↔ ∃ d, d ≤ B ∧ n.testBit (j + d) = true) :
    ∀ j, (m ||| m >>> k).testBit j = true ↔
      ∃ d, d ≤ 2 * B + 1 ∧ n.testBit (j + d) = true := by
  intro j
  rw [testBit_orShift, Bool.or_eq_true, H j, H (j + k)]
  constructor
  · rintro (⟨d, hd, h⟩ | ⟨d, hd, h⟩)
    · exact ⟨d, by omega, h⟩
    · refine ⟨k + d, by omega, ?_⟩
      have e : j + (k + d) = j + k + d := by omega
      rw [e]
      exact h
  · rintro ⟨d, hd, h⟩
    by_cases hdB : d ≤ B
    · exact Or.inl ⟨d, hdB, h⟩
    · refine Or.inr ⟨d - k, by omega, ?_⟩
      have e : j + k + (d - k) = j + d := by omega
      rw [e]
      exact h

/-- The most significant bit of a positive number is set. -/
theorem testBit_size_pred {n : Nat} (hn : 0 < n) : n.testBit (n.size - 1) = true := by
  have hpos : 0 < n.size := Nat.size_pos.mpr hn
  have h1 : 2 ^ (n.size - 1) ≤ n := Nat.lt_size.mp (by omega)
  have h2 : n < 2 ^ n.size := Nat.lt_size_self n
  have h3 : n.size = n.size - 1 + 1 := by omega
  have h4 : n / 2 ^ (n.size - 1) = 1 := by
    have hlow : 1 ≤ n / 2 ^ (n.size - 1) :=
      (Nat.one_le_div_iff (Nat.pos_pow_of_pos _ (by omega))).mpr h1
    have hhigh : n / 2 ^ (n.size - 1) < 2 := by
      rw [Nat.div_lt_iff_lt_mul (Nat.pos_pow_of_pos _ (by omega))]
      have e2 : 2 ^ (n.size - 1) * 2 = 2 ^ n.size := by
        rw [← Nat.pow_succ]
        congr 1
        omega
      omega
    omega
  rw [Nat.testBit_to_div_mod, h4]
  rfl

/-- First stage of the smear cascade of `computeNextPowerOfTwo`. -/
def smear1 (n : Nat) : Nat := n ||| n >>> 1

/-- Second stage of the smear cascade. -/
def smear2 (n : Nat) : Nat := smear1 n ||| smear1 n >>> 2

/-- Third stage of the smear cascade. -/
def smear3 (n : Nat) : Nat := smear2 n ||| smear2 n >>> 4

/-- Fourth stage of the smear cascade. -/
def smear4 (n : Nat) : Nat := smear3 n ||| smear3 n >>> 8

/-- Fifth stage of the smear cascade. -/
def smear5 (n : Nat) : Nat := smear4 n ||| smear4 n >>> 16

/-- The smear cascade sets exactly the bits lying at distance at most 31
below a set bit of the input. -/
theorem smear5_testBit (n : Nat) :
    ∀ j, (smear5 n).testBit j = true ↔ ∃ d, d ≤ 31 ∧ n.testBit (j + d) = true := by
  have base : ∀ j, n.testBit j = true ↔ ∃ d, d ≤ 0 ∧ n.testBit (j + d) = true := by
    intro j
    constructor
    · intro hj
      exact ⟨0, le_refl 0, by simpa using hj⟩
    · rintro ⟨d, hd, hj⟩
      have hd0 : d = 0 := by omega
      rw [hd0] at hj
      simpa using hj
  have s1 : ∀ j, (smear1 n).testBit j = true ↔ ∃ d, d ≤ 1 ∧ n.testBit (j + d) = true :=
    orShift_spec 1 rfl base
  have s2 : ∀ j, (smear2 n).testBit j = true ↔ ∃ d, d ≤ 3 ∧ n.testBit (j + d) = true :=
    orShift_spec 2 rfl s1
  have s3 : ∀ j, (smear3 n).testBit j = true ↔ ∃ d, d ≤ 7 ∧ n.testBit (j + d) = true :=
    orShift_spec 4 rfl s2
  have s4 : ∀ j, (smear4 n).testBit j = true ↔ ∃ d, d ≤ 15 ∧ n.testBit (j + d) = true :=
    orShift_spec 8 rfl s3
  exact orShift_spec 16 rfl s4

/-- The smear cascade of a number below two to the thirty-second yields
the all-ones pattern of its bit size. -/
theorem smear5_eq (n : Nat) (h : n < 2 ^ 32) : smear5 n = 2 ^ n.size - 1 := by
  apply Nat.eq_of_testBit_eq
  intro i
  rw [Nat.testBit_two_pow_sub_one]
  have hsz32 : n.size ≤ 32 := Nat.size_le.mpr h
  by_cases hi : i < n.size
  · have hn : 0 < n := Nat.size_pos.mp (by omega)
    have hex : ∃ d, d ≤ 31 ∧ n.testBit (i + d) = true := by
      refine ⟨n.size - 1 - i, by omega, ?_⟩
      have e : i + (n.size - 1 - i) = n.size - 1 := by omega
      rw [e]
      exact testBit_size_pred hn
    rw [(smear5_testBit n i).mpr hex]
    simp [hi]
  · have hnex : ¬ ∃ d, d ≤ 31 ∧ n.testBit (i + d) = true := by
      rintro ⟨d, hd, hbit⟩
      have hlt : n < 2 ^ (i + d) :=
        lt_of_lt_of_le (Nat.lt_size_self n) (Nat.pow_le_pow_right (by omega) (by omega))
      rw [Nat.testBit_eq_false_of_lt hlt] at hbit
      exact Bool.false_ne_true hbit
    have hfalse : (smear5 n).testBit i = false := by
      cases hb : (smear5 n).testBit i
      · rfl
      · exact absurd ((smear5_testBit n i).mp hb) hnex
    rw [hfalse]
    simp [hi]

/-- Characterization of the translated SWAR routine: below two to the
thirty-second, `computeNextPowerOfTwo` returns two raised to the bit size
of its argument, which is the smallest power of two strictly greater than
the argument. -/
theorem computeNextPowerOfTwo_eq (n : Nat) (h : n < 2 ^ 32) :
    computeNextPowerOfTwo n = 2 ^ n.size := by
  have e : computeNextPowerOfTwo n = smear5 n + 1 := rfl
  rw [e, smear5_eq n h]
  have hp : 0 < 2 ^ n.size := Nat.pos_pow_of_pos _ (by omega)
  omega

/-- Concrete state with one stored pair and capacity two, the capacity
`shrinkMemory` itself would produce for one pair. -/
def shrinkExampleState : PMState :=
  { mNbElementsHashTable := 2, mHashMask := 1, mNbOverlappingPairs := 1,
    mHashTable := some [some 0, none], mOffsetNextPair := [none],
    mOverlappingPairs := [(1, 2)] }

/-- Claim C2 counterexample: with one overlapping pair, the smallest power
of two greater than or equal to the count is 1, but `shrinkMemory` leaves
the capacity at `computeNextPowerOfTwo 1 = 2` (the cascade lacks the
initial decrement, so exact powers of two are doubled). -/
theorem shrinkMemory_not_smallest_ge :
    ¬ isSmallestPow2GE (shrinkMemory shrinkExampleState).mNbElementsHashTable
        shrinkExampleState.mNbOverlappingPairs := by
  rintro ⟨_, _, hmin⟩
  have hcap : (shrinkMemory shrinkExampleState).mNbElementsHashTable = 2 := rfl
  have h1 := hmin 1 ⟨0, rfl⟩ (le_refl 1)
  omega

/-- Claim C2 amended: after `shrinkMemory` the capacity (used for both the
dense store and the bucket index) equals `computeNextPowerOfTwo count`,
which is the smallest power of two strictly greater than the current
count; and `shrinkMemory` is a no-op exactly when the capacity already
equals that value. -/
theorem shrinkMemory_capacity (s : PMState) (h : s.mNbOverlappingPairs < 2 ^ 32) :
    (shrinkMemory s).mNbElementsHashTable = 2 ^ Nat.size s.mNbOverlappingPairs ∧
    s.mNbOverlappingPairs < 2 ^ Nat.size s.mNbOverlappingPairs ∧
    (∀ k, s.mNbOverlappingPairs < 2 ^ k → 2 ^ Nat.size s.mNbOverlappingPairs ≤ 2 ^ k) ∧
    (s.mNbElementsHashTable = computeNextPowerOfTwo s.mNbOverlappingPairs →
      shrinkMemory s = s) := by
  refine ⟨?_, Nat.lt_size_self s.mNbOverlappingPairs, ?_, ?_⟩
  · unfold shrinkMemory
    rw [computeNextPowerOfTwo_eq s.mNbOverlappingPairs h]
    by_cases hc : s.mNbElementsHashTable = 2 ^ Nat.size s.mNbOverlappingPairs
    · rw [if_pos hc]
      exact hc
    · rw [if_neg hc]
      rfl
  · intro k hk
    exact Nat.pow_le_pow_right (by omega) (Nat.size_le.mpr hk)
  · intro hc
    unfold shrinkMemory
    rw [if_pos hc]

/-- Witness for the amended claim C2 at a concrete state. -/
theorem shrinkMemory_capacity_witness :
    shrinkExampleState.mNbOverlappingPairs < 2 ^ 32 ∧
    ((shrinkMemory shrinkExampleState).mNbElementsHashTable
        = 2 ^ Nat.size shrinkExampleState.mNbOverlappingPairs ∧
     shrinkExampleState.mNbOverlappingPairs
        < 2 ^ Nat.size shrinkExampleState.mNbOverlappingPairs ∧
     (∀ k, shrinkExampleState.mNbOverlappingPairs < 2 ^ k →
        2 ^ Nat.size shrinkExampleState.mNbOverlappingPairs ≤ 2 ^ k) ∧
     (shrinkExampleState.mNbElementsHashTable
        = computeNextPowerOfTwo shrinkExampleState.mNbOverlappingPairs →
        shrinkMemory shrinkExampleState = shrinkExampleState)) :=
  ⟨by decide, shrinkMemory_capacity shrinkExampleState (by decide)⟩

/-- Claim C6: under the invariant that the capacity is a power of two and
the mask is capacity minus one, every bucket index computed as
`computeHashBodies(id1, id2) & mHashMask` lies inside `[0, capacity)`, so
no bucket access reads outside the table; and `shrinkMemory` re-establishes
the invariant whenever it resizes. -/
theorem bucket_index_in_range (s : PMState) (k : Nat)
    (hcap : s.mNbElementsHashTable = 2 ^ k)
    (hmask : s.mHashMask = s.mNbElementsHashTable - 1) :
    (∀ id1 id2, computeHashBodies id1 id2 &&& s.mHashMask < s.mNbElementsHashTable) ∧
    (s.mNbOverlappingPairs < 2 ^ 32 →
      ∃ k2, (shrinkMemory s).mNbElementsHashTable = 2 ^ k2 ∧
        (shrinkMemory s).mHashMask = (shrinkMemory s).mNbElementsHashTable - 1) := by
  constructor
  · intro id1 id2
    rw [hmask, hcap]
    exact Nat.and_lt_two_pow _ (Nat.sub_lt (Nat.pos_pow_of_pos _ (by omega)) (by omega))
  · intro hcount
    unfold shrinkMemory
    by_cases hc : s.mNbElementsHashTable = computeNextPowerOfTwo s.mNbOverlappingPairs
    · rw [if_pos hc]
      exact ⟨k, hcap, hmask⟩
    · rw [if_neg hc]
      refine ⟨Nat.size s.mNbOverlappingPairs, ?_, ?_⟩
      · show computeNextPowerOfTwo s.mNbOverlappingPairs = _
        exact computeNextPowerOfTwo_eq s.mNbOverlappingPairs hcount
      · rfl

/-- Witness for claim C6 at a concrete state. -/
theorem bucket_index_in_range_witness :
    shrinkExampleState.mNbElementsHashTable = 2 ^ 1 ∧
    shrinkExampleState.mHashMask = shrinkExampleState.mNbElementsHashTable - 1 ∧
    ((∀ id1 id2,
        computeHashBodies id1 id2 &&& shrinkExampleState.mHashMask
          < shrinkExampleState.mNbElementsHashTable) ∧
     (shrinkExampleState.mNbOverlappingPairs < 2 ^ 32 →
       ∃ k2, (shrinkMemory shrinkExampleState).mNbElementsHashTable = 2 ^ k2 ∧
         (shrinkMemory shrinkExampleState).mHashMask
           = (shrinkMemory shrinkExampleState).mNbElementsHashTable - 1)) :=
  ⟨rfl, rfl, bucket_index_in_range shrinkExampleState 1 rfl rfl⟩

/-- Proper (finite, sentinel-terminated) hash-bucket chain: starting from
link value `o` and following the `next` array, the walk visits exactly the
indices of `l` and ends at the sentinel. -/
inductive IsChain (next : List (Option Nat)) : Option Nat → List Nat → Prop where
  | nil : IsChain next none []
  | cons {i : Nat} {o : Option Nat} {l : List Nat} :
      next[i]? = some o → IsChain next o l → IsChain next (some i) (i :: l)

/-- Every index on a chain is a valid index into the link array. -/
theorem IsChain.mem_lt {next : List (Option Nat)} {o : Option Nat} {l : List Nat}
    (h : IsChain next o l) : ∀ j ∈ l, j < next.length := by
  induction h with
  | nil =>
    intro j hj
    cases hj
  | @cons i o2 l2 hnx hc ih =>
    intro j hj
    rcases List.mem_cons.mp hj with rfl | hj
    · exact (List.getElem?_eq_some.mp hnx).1
    · exact ih j hj

/-- The chain starting at a given link value is unique. -/
theorem IsChain.deterministic {next : List (Option Nat)} :
    ∀ {o : Option Nat} {l1 l2 : List Nat},
      IsChain next o l1 → IsChain next o l2 → l1 = l2 := by
  intro o l1
  induction l1 generalizing o with
  | nil =>
    intro l2 h1 h2
    cases h1
    cases h2
    rfl
  | cons a l1t ih =>
    intro l2 h1 h2
    cases h1 with
    | cons hnx1 hc1 =>
      cases h2 with
      | cons hnx2 hc2 =>
        rw [hnx1] at hnx2
        cases hnx2
        rw [ih hc1 hc2]

/-- Every chain member starts a chain that is a strict suffix. -/
theorem IsChain.suffix {next : List (Option Nat)} {o : Option Nat} {l : List Nat}
    (h : IsChain next o l) :
    ∀ i ∈ l, ∃ r, IsChain next (some i) (i :: r) ∧ r.length < l.length := by
  induction h with
  | nil =>
    intro i hi
    cases hi
  | @cons i o2 l2 hnx hc ih =>
    intro j hj
    rcases List.mem_cons.mp hj with rfl | hj
    · exact ⟨l2, IsChain.cons hnx hc, by simp⟩
    · obtain ⟨r, hr, hlen⟩ := ih j hj
      refine ⟨r, hr, ?_⟩
      simp only [List.length_cons]
      omega

/-- A proper chain never revisits an index. -/
theorem IsChain.nodup {next : List (Option Nat)} {o : Option Nat} {l : List Nat}
    (h : IsChain next o l) : l.Nodup := by
  induction h with
  | nil => exact List.nodup_nil
  | @cons i o2 l2 hnx hc ih =>
    refine List.nodup_cons.mpr ⟨?_, ih⟩
    intro hmem
    obtain ⟨r, hr, hlen⟩ := hc.suffix i hmem
    have hdup := IsChain.deterministic (IsChain.cons hnx hc) hr
    have hl2r : l2 = r := by injection hdup
    have hlen2 : l2.length = r.length := by rw [hl2r]
    omega

/-- A chain only depends on the link entries of its members. -/
theorem IsChain.stable {next next2 : List (Option Nat)} {o : Option Nat} {l : List Nat}
    (h : IsChain next o l) (hs : ∀ j ∈ l, next2[j]? = next[j]?) : IsChain next2 o l := by
  induction h with
  | nil => exact IsChain.nil
  | @cons i o2 l2 hnx hc ih =>
    refine IsChain.cons ?_ (ih ?_)
    · rw [hs i (List.mem_cons_self i l2), hnx]
    · intro j hj
      exact hs j (List.mem_cons_of_mem i hj)

/-- A chain is no longer than the link array. -/
theorem IsChain.length_le {next : List (Option Nat)} {o : Option Nat} {l : List Nat}
    (h : IsChain next o l) : l.length ≤ next.length := by
  have hsub : l.toFinset ⊆ Finset.range next.length := by
    intro x hx
    exact Finset.mem_range.mpr (h.mem_lt x (List.mem_toFinset.mp hx))
  have hcard := Finset.card_le_card hsub
  rw [List.toFinset_card_of_nodup h.nodup, Finset.card_range] at hcard
  exact hcard

/-- The comparison of `isDifferentPair`, in propositional form. -/
theorem isDifferentPair_true_iff {p : Nat × Nat} {a b : Nat} :
    isDifferentPair p a b = true ↔ p ≠ (a, b) := by
  rcases p with ⟨x, y⟩
  unfold isDifferentPair
  simp [Prod.ext_iff]
  omega

/-- Negated form of the comparison. -/
theorem isDifferentPair_false_iff {p : Nat × Nat} {a b : Nat} :
    isDifferentPair p a b = false ↔ p = (a, b) := by
  rw [← Bool.not_eq_true, isDifferentPair_true_iff]
  simp

/-- The chain walk of `lookForAPair` computes the first chain member whose
stored record equals the query, provided the fuel covers the chain
length. -/
theorem chainWalk_eq_find {pairs : List (Nat × Nat)} {next : List (Option Nat)}
    {id1 id2 : Nat} {o : Option Nat} {l : List Nat} (h : IsChain next o l)
    (hval : ∀ j ∈ l, j < pairs.length) :
    ∀ fuel, l.length ≤ fuel →
      chainWalk pairs next id1 id2 fuel o
        = l.find? (fun j => pairs[j]? == some (id1, id2)) := by
  induction h with
  | nil =>
    intro fuel _
    cases fuel <;> rfl
  | @cons i o2 l2 hnx hc ih =>
    intro fuel hfuel
    have hi : i < pairs.length := hval i (List.mem_cons_self i l2)
    obtain ⟨p, hp⟩ : ∃ p, pairs[i]? = some p := ⟨_, List.getElem?_eq_getElem hi⟩
    match fuel, hfuel with
    | f + 1, hfuel =>
      simp only [chainWalk, hp]
      by_cases hd : isDifferentPair p id1 id2 = true
      · rw [if_pos hd, hnx]
        have hpred : ¬ (fun j => pairs[j]? == some (id1, id2)) i = true := by
          simp only [hp, beq_iff_eq, Option.some.injEq]
          exact isDifferentPair_true_iff.mp hd
        rw [@List.find?_cons_of_neg _ (fun j => pairs[j]? == some (id1, id2)) i l2 hpred]
        show chainWalk pairs next id1 id2 f o2 = _
        exact ih (fun j hj => hval j (List.mem_cons_of_mem i hj)) f
          (by simp only [List.length_cons] at hfuel; omega)
      · have hpred : (fun j => pairs[j]? == some (id1, id2)) i = true := by
          simp only [hp, beq_iff_eq, Option.some.injEq]
          exact isDifferentPair_false_iff.mp (Bool.not_eq_true _ ▸ hd)
        rw [if_neg hd, @List.find?_cons_of_pos _ (fun j => pairs[j]? == some (id1, id2)) i l2 hpred]

/-- A successful chain walk returns the index of a record equal to the
query; no invariant is needed. -/
theorem chainWalk_sound {pairs : List (Nat × Nat)} {next : List (Option Nat)}
    {id1 id2 : Nat} :
    ∀ (fuel : Nat) (o : Option Nat) (off : Nat),
      chainWalk pairs next id1 id2 fuel o = some off → pairs[off]? = some (id1, id2) := by
  intro fuel
  induction fuel with
  | zero =>
    intro o off h
    cases o <;> simp [chainWalk] at h
  | succ f ih =>
    intro o off h
    cases o with
    | none => simp [chainWalk] at h
    | some j =>
      rw [chainWalk] at h
      cases hp : pairs[j]? with
      | none =>
        simp only [hp] at h
        exact Option.noConfusion h
      | some p =>
        simp only [hp] at h
        by_cases hd : isDifferentPair p id1 id2 = true
        · rw [if_pos hd] at h
          exact ih _ _ h
        · rw [if_neg hd] at h
          have hj : j = off := by injection h
          subst hj
          have hpe : p = (id1, id2) := by
            rw [Bool.not_eq_true] at hd
            exact isDifferentPair_false_iff.mp hd
          rw [hp, hpe]

/-- Bucket indices computed with a power-of-two table and its mask stay in
range. -/
theorem bucketOf_lt {mask : Nat} {t : List (Option Nat)}
    (hpow : ∃ k, t.length = 2 ^ k) (hmask : mask = t.length - 1) (p : Nat × Nat) :
    bucketOf mask p < t.length := by
  obtain ⟨k, hk⟩ := hpow
  rw [hmask, hk]
  exact Nat.and_lt_two_pow _ (Nat.sub_lt (Nat.pos_pow_of_pos _ (by omega)) (by omega))

/-- Well-formedness of the coalesced bucket structure over the dense store:
every bucket heads a proper chain whose members are covered indices storing
records that hash to that bucket, and every covered index is reachable in
the chain of its record's bucket.  `S` is the set of dense-store indices
currently linked into the table. -/
structure TableWF (mask : Nat) (pairs : List (Nat × Nat)) (t nx : List (Option Nat))
    (S : Finset Nat) : Prop where
  nxLen : nx.length = pairs.length
  sizePow : ∃ k, t.length = 2 ^ k
  maskEq : mask = t.length - 1
  chains : ∀ b, b < t.length → ∃ l, IsChain nx (t[b]?.join) l ∧
      ∀ i ∈ l, i ∈ S ∧ ∃ p, pairs[i]? = some p ∧ bucketOf mask p = b
  cover : ∀ i ∈ S, ∃ p, pairs[i]? = some p ∧
      ∃ l, IsChain nx (t[bucketOf mask p]?.join) l ∧ i ∈ l

/-- Covered indices are valid dense-store indices. -/
theorem TableWF.mem_length {mask : Nat} {pairs : List (Nat × Nat)}
    {t nx : List (Option Nat)} {S : Finset Nat} (h : TableWF mask pairs t nx S) :
    ∀ i ∈ S, i < pairs.length := by
  intro i hi
  obtain ⟨p, hp, _⟩ := h.cover i hi
  exact (List.getElem?_eq_some.mp hp).1

/-- The canonical chain of a bucket: it carries the membership conditions
and contains every covered index whose record hashes to the bucket. -/
theorem TableWF.chain_at {mask : Nat} {pairs : List (Nat × Nat)}
    {t nx : List (Option Nat)} {S : Finset Nat} (h : TableWF mask pairs t nx S)
    {b : Nat} (hb : b < t.length) :
    ∃ l, IsChain nx (t[b]?.join) l ∧
      (∀ i ∈ l, i ∈ S ∧ ∃ p, pairs[i]? = some p ∧ bucketOf mask p = b) ∧
      (∀ j ∈ S, ∀ q, pairs[j]? = some q → bucketOf mask q = b → j ∈ l) := by
  obtain ⟨l, hl, hlmem⟩ := h.chains b hb
  refine ⟨l, hl, hlmem, ?_⟩
  intro j hj q hq hqb
  obtain ⟨q2, hq2, l2, hl2, hjl2⟩ := h.cover j hj
  rw [hq] at hq2
  cases hq2
  rw [hqb] at hl2
  rw [IsChain.deterministic hl hl2]
  exact hjl2

/-- Linking a fresh index at the head of its record's bucket chain
preserves table well-formedness.  The lemma is stated generically over the
new dense store and link array so that it covers both the in-place rehash
step and the append step of `addPair`. -/
theorem TableWF.insert_general {mask : Nat} {pairs pairs2 : List (Nat × Nat)}
    {t nx nx2 : List (Option Nat)} {S : Finset Nat} {i : Nat} {p : Nat × Nat}
    (h : TableWF mask pairs t nx S)
    (hfresh : i ∉ S)
    (hp2 : pairs2[i]? = some p)
    (hstable : ∀ j ∈ S, pairs2[j]? = pairs[j]?)
    (hnxlen : nx2.length = pairs2.length)
    (hnx2i : nx2[i]? = some (t[bucketOf mask p]?.join))
    (hnxstable : ∀ j ∈ S, nx2[j]? = nx[j]?) :
    TableWF mask pairs2 (t.set (bucketOf mask p) (some i)) nx2 (insert i S) := by
  have hb := bucketOf_lt h.sizePow h.maskEq p
  constructor
  case nxLen => exact hnxlen
  case sizePow => rw [List.length_set]; exact h.sizePow
  case maskEq => rw [List.length_set]; exact h.maskEq
  case chains =>
    intro b hblt
    rw [List.length_set] at hblt
    by_cases hbb : b = bucketOf mask p
    · subst hbb
      obtain ⟨l, hl, hlmem⟩ := h.chains (bucketOf mask p) hblt
      refine ⟨i :: l, ?_, ?_⟩
      · rw [List.getElem?_set_eq_of_lt _ hblt]
        show IsChain nx2 (some i) (i :: l)
        exact IsChain.cons hnx2i (hl.stable fun j hj => hnxstable j (hlmem j hj).1)
      · intro j hj
        rcases List.mem_cons.mp hj with rfl | hj
        · exact ⟨Finset.mem_insert_self j S, p, hp2, rfl⟩
        · obtain ⟨hjS, q, hq, hqb⟩ := hlmem j hj
          exact ⟨Finset.mem_insert_of_mem hjS, q, by rw [hstable j hjS]; exact hq, hqb⟩
    · obtain ⟨l, hl, hlmem⟩ := h.chains b hblt
      refine ⟨l, ?_, ?_⟩
      · rw [List.getElem?_set_ne (fun e => hbb e.symm)]
        exact hl.stable fun j hj => hnxstable j (hlmem j hj).1
      · intro j hj
        obtain ⟨hjS, q, hq, hqb⟩ := hlmem j hj
        exact ⟨Finset.mem_insert_of_mem hjS, q, by rw [hstable j hjS]; exact hq, hqb⟩
  case cover =>
    intro j hj
    rcases Finset.mem_insert.mp hj with rfl | hjS
    · refine ⟨p, hp2, ?_⟩
      obtain ⟨l, hl, hlmem⟩ := h.chains (bucketOf mask p) hb
      refine ⟨j :: l, ?_, List.mem_cons_self j l⟩
      rw [List.getElem?_set_eq_of_lt _ hb]
      show IsChain nx2 (some j) (j :: l)
      exact IsChain.cons hnx2i (hl.stable fun j2 hj2 => hnxstable j2 (hlmem j2 hj2).1)
    · obtain ⟨q, hq, l, hl, hjl⟩ := h.cover j hjS
      refine ⟨q, by rw [hstable j hjS]; exact hq, ?_⟩
      obtain ⟨l2, hl2, hl2mem, _⟩ := h.chain_at (bucketOf_lt h.sizePow h.maskEq q)
      have hll2 : l = l2 := IsChain.deterministic hl hl2
      subst hll2
      by_cases hqb : bucketOf mask q = bucketOf mask p
      · obtain ⟨l3, hl3, hl3mem⟩ := h.chains (bucketOf mask p) hb
        have hlq : IsChain nx (t[bucketOf mask p]?.join) l := by
          rw [← hqb]
          exact hl
        have hll3 : l = l3 := IsChain.deterministic hlq hl3
        refine ⟨i :: l3, ?_, ?_⟩
        · rw [hqb, List.getElem?_set_eq_of_lt _ hb]
          show IsChain nx2 (some i) (i :: l3)
          exact IsChain.cons hnx2i (hl3.stable fun j2 hj2 => hnxstable j2 (hl3mem j2 hj2).1)
        · exact List.mem_cons_of_mem _ (hll3 ▸ hjl)
      · refine ⟨l, ?_, hjl⟩
        rw [List.getElem?_set_ne (fun e => hqb e.symm)]
        exact hl.stable fun j2 hj2 => hnxstable j2 (hl2mem j2 hj2).1

/-- Appending a fresh record and a fresh link slot does not disturb the
existing bucket structure. -/
theorem TableWF.extend {mask : Nat} {pairs : List (Nat × Nat)}
    {t nx : List (Option Nat)} {S : Finset Nat} (h : TableWF mask pairs t nx S)
    (p : Nat × Nat) (v : Option Nat) :
    TableWF mask (pairs ++ [p]) t (nx ++ [v]) S := by
  have hget : ∀ j ∈ S, (pairs ++ [p])[j]? = pairs[j]? := by
    intro j hj
    exact List.getElem?_append_left (h.mem_length j hj)
  have hnxget : ∀ j ∈ S, (nx ++ [v])[j]? = nx[j]? := by
    intro j hj
    exact List.getElem?_append_left (h.nxLen ▸ h.mem_length j hj)
  constructor
  case nxLen => simp [h.nxLen]
  case sizePow => exact h.sizePow
  case maskEq => exact h.maskEq
  case chains =>
    intro b hb
    obtain ⟨l, hl, hlmem⟩ := h.chains b hb
    refine ⟨l, hl.stable fun j hj => hnxget j (hlmem j hj).1, ?_⟩
    intro j hj
    obtain ⟨hjS, q, hq, hqb⟩ := hlmem j hj
    exact ⟨hjS, q, by rw [hget j hjS]; exact hq, hqb⟩
  case cover =>
    intro j hj
    obtain ⟨q, hq, l, hl, hjl⟩ := h.cover j hj
    obtain ⟨l2, hl2, hl2mem, _⟩ := h.chain_at (bucketOf_lt h.sizePow h.maskEq q)
    have hll2 : l = l2 := IsChain.deterministic hl hl2
    subst hll2
    refine ⟨q, by rw [hget j hj]; exact hq, l, ?_, hjl⟩
    exact hl.stable fun j2 hj2 => hnxget j2 (hl2mem j2 hj2).1

/-- The full rehash of `reallocatePairs` builds a well-formed table
covering every dense-store index. -/
theorem rehashAll_spec (mask sz : Nat) (pairs : List (Nat × Nat))
    (hpow : ∃ k, sz = 2 ^ k) (hmask : mask = sz - 1) :
    TableWF mask pairs (rehashAll mask sz pairs).1 (rehashAll mask sz pairs).2
      (Finset.range pairs.length) ∧
    (rehashAll mask sz pairs).1.length = sz ∧
    (rehashAll mask sz pairs).2.length = pairs.length := by
  have main : ∀ m, m ≤ pairs.length →
      TableWF mask pairs
        ((List.range m).foldl (insertHead mask pairs)
          (List.replicate sz (none : Option Nat),
           List.replicate pairs.length (none : Option Nat))).1
        ((List.range m).foldl (insertHead mask pairs)
          (List.replicate sz (none : Option Nat),
           List.replicate pairs.length (none : Option Nat))).2
        (Finset.range m) ∧
      ((List.range m).foldl (insertHead mask pairs)
          (List.replicate sz (none : Option Nat),
           List.replicate pairs.length (none : Option Nat))).1.length = sz ∧
      ((List.range m).foldl (insertHead mask pairs)
          (List.replicate sz (none : Option Nat),
           List.replicate pairs.length (none : Option Nat))).2.length = pairs.length := by
    intro m
    induction m with
    | zero =>
      intro _
      simp only [List.range_zero, List.foldl_nil]
      refine ⟨?_, by simp, by simp⟩
      constructor
      case nxLen => simp
      case sizePow => simpa using hpow
      case maskEq => simpa using hmask
      case chains =>
        intro b hb
        rw [List.length_replicate] at hb
        refine ⟨[], ?_, by intro i hi; cases hi⟩
        rw [List.getElem?_replicate, if_pos hb]
        exact IsChain.nil
      case cover =>
        intro i hi
        simp at hi
    | succ m ih =>
      intro hm
      obtain ⟨hwf, hlen1, hlen2⟩ := ih (by omega)
      rw [List.range_succ, List.foldl_append, List.foldl_cons, List.foldl_nil]
      have hmlt : m < pairs.length := by omega
      obtain ⟨p, hp⟩ : ∃ p, pairs[m]? = some p := ⟨_, List.getElem?_eq_getElem hmlt⟩
      set st := (List.range m).foldl (insertHead mask pairs)
        (List.replicate sz (none : Option Nat),
         List.replicate pairs.length (none : Option Nat)) with hst
      have hstep : insertHead mask pairs st m
          = (st.1.set (bucketOf mask p) (some m),
             st.2.set m (st.1[bucketOf mask p]?.join)) := by
        simp only [insertHead, hp]
      rw [hstep]
      have hres := @TableWF.insert_general mask pairs pairs st.1 st.2
        (st.2.set m (st.1[bucketOf mask p]?.join)) (Finset.range m) m p hwf
        (by simp) hp (fun j hj => rfl) (by rw [List.length_set]; exact hlen2)
        (List.getElem?_set_eq_of_lt _ (by rw [hlen2]; exact hmlt))
        (fun j hj => List.getElem?_set_ne (by intro e; rw [e] at hj; simp at hj))
      rw [← Finset.range_succ] at hres
      exact ⟨hres, by rw [List.length_set]; exact hlen1, by rw [List.length_set]; exact hlen2⟩
  exact main pairs.length (le_refl _)

/-- State invariant of the pair manager: the pair count tracks the dense
store, and once the table is allocated it is well-formed and covers every
dense-store index; before the first allocation the store is empty. -/
structure WF (s : PMState) : Prop where
  countEq : s.mNbOverlappingPairs = s.mOverlappingPairs.length
  table : ∀ t, s.mHashTable = some t →
      TableWF s.mHashMask s.mOverlappingPairs t s.mOffsetNextPair
        (Finset.range s.mOverlappingPairs.length)
  tableNone : s.mHashTable = none → s.mOverlappingPairs = [] ∧ s.mOffsetNextPair = []

/-- The fresh manager is well-formed. -/
theorem WF_initState : WF initState := by
  constructor
  · rfl
  · intro t ht
    cases ht
  · intro _
    exact ⟨rfl, rfl⟩

/-- Characterization of the removal traversal: on a proper chain it either
reports no match — and then no chain member stores the query — or returns
the first matching member together with its predecessor link. -/
theorem chainFindPred_spec {pairs : List (Nat × Nat)} {next : List (Option Nat)}
    {id1 id2 : Nat} {o : Option Nat} {l : List Nat} (h : IsChain next o l)
    (hval : ∀ j ∈ l, j < pairs.length) :
    ∀ fuel, l.length ≤ fuel → ∀ pr0,
      (chainFindPred pairs next id1 id2 fuel o pr0 = none ∧
        ∀ j ∈ l, pairs[j]? ≠ some (id1, id2)) ∨
      (∃ i pr l1 l2, chainFindPred pairs next id1 id2 fuel o pr0 = some (i, pr) ∧
        l = l1 ++ i :: l2 ∧ pairs[i]? = some (id1, id2) ∧
        (∀ j ∈ l1, pairs[j]? ≠ some (id1, id2)) ∧
        ((l1 = [] ∧ pr = pr0 ∧ o = some i) ∨
         (∃ j l1p, l1 = l1p ++ [j] ∧ pr = some j ∧ next[j]? = some (some i)))) := by
  induction h with
  | nil =>
    intro fuel hfuel pr0
    left
    refine ⟨?_, ?_⟩
    · cases fuel <;> rfl
    · intro j hj
      cases hj
  | @cons a o2 ltail hnx hc ih =>
    intro fuel hfuel pr0
    have ha : a < pairs.length := hval a (List.mem_cons_self a ltail)
    obtain ⟨p, hp⟩ : ∃ p, pairs[a]? = some p := ⟨_, List.getElem?_eq_getElem ha⟩
    match fuel, hfuel with
    | f + 1, hfuel =>
      by_cases hd : isDifferentPair p id1 id2 = true
      · have hstep : chainFindPred pairs next id1 id2 (f + 1) (some a) pr0
            = chainFindPred pairs next id1 id2 f (next[a]?.join) (some a) := by
          simp only [chainFindPred, hp, if_pos hd]
        have hjoin : next[a]?.join = o2 := by rw [hnx]; rfl
        rw [hstep, hjoin]
        have hane : pairs[a]? ≠ some (id1, id2) := by
          rw [hp]
          intro e
          injection e with e2
          exact isDifferentPair_true_iff.mp hd e2
        rcases ih (fun j hj => hval j (List.mem_cons_of_mem a hj)) f
            (by simp only [List.length_cons] at hfuel; omega) (some a) with
          ⟨hnone, hall⟩ | ⟨i, pr, l1, l2x, heq, hdecomp, hpi, hl1, hcase⟩
        · left
          refine ⟨hnone, ?_⟩
          intro j hj
          rcases List.mem_cons.mp hj with rfl | hj
          · exact hane
          · exact hall j hj
        · right
          refine ⟨i, pr, a :: l1, l2x, heq, (by rw [hdecomp]; rfl), hpi, ?_, ?_⟩
          · intro j hj
            rcases List.mem_cons.mp hj with rfl | hj
            · exact hane
            · exact hl1 j hj
          · rcases hcase with ⟨he, hpr, ho⟩ | ⟨j, l1p, hdec, hpr, hnj⟩
            · right
              refine ⟨a, [], (by rw [he]; rfl), hpr, ?_⟩
              rw [hnx, ho]
            · right
              exact ⟨j, a :: l1p, (by rw [hdec]; rfl), hpr, hnj⟩
      · have hstep : chainFindPred pairs next id1 id2 (f + 1) (some a) pr0
            = some (a, pr0) := by
          simp only [chainFindPred, hp, if_neg hd]
        right
        refine ⟨a, pr0, [], ltail, hstep, rfl, ?_, (by intro j hj; cases hj),
          Or.inl ⟨rfl, rfl, rfl⟩⟩
        rw [hp]
        have hpe : p = (id1, id2) := by
          rw [Bool.not_eq_true] at hd
          exact isDifferentPair_false_iff.mp hd
        rw [hpe]

/-- Every chain member has a link entry. -/
theorem IsChain.mem_next {next : List (Option Nat)} {o : Option Nat} {l : List Nat}
    (h : IsChain next o l) {j : Nat} (hj : j ∈ l) : ∃ o2, next[j]? = some o2 := by
  obtain ⟨r, hr, _⟩ := h.suffix j hj
  cases hr with
  | cons hnx _ => exact ⟨_, hnx⟩

/-- Splicing an entry out of the middle of a chain: when `j` links to `i`
and `i` links onwards to `o2`, redirecting `j` to `o2` removes exactly `i`
from the chain. -/
theorem chain_splice_mid {nx : List (Option Nat)} {j i : Nat} {o2 : Option Nat}
    (hni : nx[i]? = some o2) :
    ∀ (l1 : List Nat) (head : Option Nat) (l2 : List Nat),
      IsChain nx head (l1 ++ j :: i :: l2) →
      (l1 ++ j :: i :: l2).Nodup →
      IsChain (nx.set j o2) head (l1 ++ j :: l2) := by
  intro l1
  induction l1 with
  | nil =>
    intro head l2 h hnd
    cases h with
    | cons hnxj hcj =>
      cases hcj with
      | cons hnxi hci =>
        rw [hni] at hnxi
        injection hnxi with ho
        subst ho
        refine IsChain.cons
          (List.getElem?_set_eq_of_lt o2 (List.getElem?_eq_some.mp hnxj).1) ?_
        refine hci.stable ?_
        intro x hx
        refine List.getElem?_set_ne ?_
        intro e
        have hnd2 : j ∉ i :: l2 := (List.nodup_cons.mp (by simpa using hnd)).1
        exact hnd2 (e ▸ List.mem_cons_of_mem i hx)
  | cons a l1t ih =>
    intro head l2 h hnd
    cases h with
    | cons hnxa hca =>
      have hnd2 : a ∉ l1t ++ j :: i :: l2 := (List.nodup_cons.mp (by simpa using hnd)).1
      have hja : j ≠ a := by
        intro e
        exact hnd2 (e ▸ List.mem_append_right l1t (List.mem_cons_self j (i :: l2)))
      refine IsChain.cons ?_ (ih _ _ hca (List.Nodup.of_cons (by simpa using hnd)))
      rw [List.getElem?_set_ne hja]
      exact hnxa

/-- Splicing out the head of a bucket chain preserves table
well-formedness, removing the head index from the covered set. -/
theorem TableWF.splice_head {mask : Nat} {pairs : List (Nat × Nat)}
    {t nx : List (Option Nat)} {S : Finset Nat} (h : TableWF mask pairs t nx S)
    {b i : Nat} {o2 : Option Nat} (hb : b < t.length)
    (hhead : t[b]?.join = some i) (hni : nx[i]? = some o2) :
    TableWF mask pairs (t.set b o2) nx (S.erase i) := by
  obtain ⟨l, hl, hlmem, hlcov⟩ := h.chain_at hb
  rw [hhead] at hl
  obtain ⟨rest, hrest, hlrest⟩ : ∃ rest, IsChain nx o2 rest ∧ l = i :: rest := by
    cases hl with
    | cons hnxi2 hrest2 =>
      rw [hni] at hnxi2
      injection hnxi2 with ho
      subst ho
      exact ⟨_, hrest2, rfl⟩
  subst hlrest
  have hinotrest : i ∉ rest := (List.nodup_cons.mp (IsChain.cons hni hrest).nodup).1
  obtain ⟨hiS, qi, hqi, hqib⟩ := hlmem i (List.mem_cons_self i rest)
  constructor
  case nxLen => exact h.nxLen
  case sizePow => rw [List.length_set]; exact h.sizePow
  case maskEq => rw [List.length_set]; exact h.maskEq
  case chains =>
    intro b2 hb2
    rw [List.length_set] at hb2
    by_cases hbb : b2 = b
    · subst hbb
      refine ⟨rest, ?_, ?_⟩
      · rw [List.getElem?_set_eq_of_lt o2 hb2]
        exact hrest
      · intro x hx
        obtain ⟨hxS, q, hq, hqb⟩ := hlmem x (List.mem_cons_of_mem i hx)
        refine ⟨Finset.mem_erase.mpr ⟨?_, hxS⟩, q, hq, hqb⟩
        intro e
        exact hinotrest (e ▸ hx)
    · obtain ⟨lb, hlb, hlbmem⟩ := h.chains b2 hb2
      refine ⟨lb, ?_, ?_⟩
      · rw [List.getElem?_set_ne (fun e => hbb e.symm)]
        exact hlb
      · intro x hx
        obtain ⟨hxS, q, hq, hqb⟩ := hlbmem x hx
        refine ⟨Finset.mem_erase.mpr ⟨?_, hxS⟩, q, hq, hqb⟩
        intro e
        subst e
        rw [hq] at hqi
        injection hqi with hqe
        subst hqe
        exact hbb (hqb ▸ hqib.symm ▸ rfl)
  case cover =>
    intro x hx
    obtain ⟨hxne, hxS⟩ := Finset.mem_erase.mp hx
    obtain ⟨q, hq, lc, hlc, hxlc⟩ := h.cover x hxS
    by_cases hqb : bucketOf mask q = b
    · rw [hqb] at hlc
      have hlceq : lc = i :: rest := IsChain.deterministic hlc (hhead ▸ IsChain.cons hni hrest)
      refine ⟨q, hq, rest, ?_, ?_⟩
      · rw [hqb, List.getElem?_set_eq_of_lt o2 hb]
        exact hrest
      · rw [hlceq] at hxlc
        rcases List.mem_cons.mp hxlc with rfl | hxrest
        · exact absurd rfl hxne
        · exact hxrest
    · refine ⟨q, hq, lc, ?_, hxlc⟩
      rw [List.getElem?_set_ne (fun e => hqb e.symm)]
      exact hlc

/-- Splicing out a mid-chain entry preserves table well-formedness,
removing the entry from the covered set. -/
theorem TableWF.splice_pred {mask : Nat} {pairs : List (Nat × Nat)}
    {t nx : List (Option Nat)} {S : Finset Nat} (h : TableWF mask pairs t nx S)
    {b i j : Nat} {o2 : Option Nat} {l1p l2 : List Nat} (hb : b < t.length)
    (hchain : IsChain nx (t[b]?.join) (l1p ++ j :: i :: l2))
    (hni : nx[i]? = some o2) :
    TableWF mask pairs t (nx.set j o2) (S.erase i) := by
  obtain ⟨l, hl, hlmem, hlcov⟩ := h.chain_at hb
  have hleq : l = l1p ++ j :: i :: l2 := IsChain.deterministic hl hchain
  subst hleq
  have hnd := hl.nodup
  have hji : j ≠ i := by
    intro e
    subst e
    have := List.Nodup.of_append_right hnd
    exact (List.nodup_cons.mp this).1 (List.mem_cons_self j l2)
  have hjmem : j ∈ l1p ++ j :: i :: l2 :=
    List.mem_append_right l1p (List.mem_cons_self j (i :: l2))
  have himem : i ∈ l1p ++ j :: i :: l2 :=
    List.mem_append_right l1p (List.mem_cons_of_mem j (List.mem_cons_self i l2))
  obtain ⟨hjS, qj, hqj, hqjb⟩ := hlmem j hjmem
  obtain ⟨hiS, qi, hqi, hqib⟩ := hlmem i himem
  have hnewchain : IsChain (nx.set j o2) (t[b]?.join) (l1p ++ j :: l2) :=
    chain_splice_mid hni l1p _ l2 hchain hnd
  have hmemnew : ∀ x ∈ l1p ++ j :: l2, x ∈ l1p ++ j :: i :: l2 ∧ x ≠ i := by
    intro x hx
    rcases List.mem_append.mp hx with hx1 | hx2
    · refine ⟨List.mem_append_left _ hx1, ?_⟩
      intro e
      obtain ⟨hd1, hd2, hdisj⟩ := List.nodup_append.mp hnd
      refine hdisj hx1 ?_
      rw [e]
      exact List.mem_cons_of_mem j (List.mem_cons_self i l2)
    · rcases List.mem_cons.mp hx2 with rfl | hx3
      · exact ⟨hjmem, hji⟩
      · refine ⟨List.mem_append_right _ (List.mem_cons_of_mem _ (List.mem_cons_of_mem _ hx3)), ?_⟩
        intro e
        have hr := List.Nodup.of_cons (List.Nodup.of_append_right hnd)
        refine (List.nodup_cons.mp hr).1 ?_
        rw [← e]
        exact hx3
  have hstable : ∀ b2, b2 < t.length → b2 ≠ b →
      ∀ x ∈ S, ∀ q, pairs[x]? = some q → bucketOf mask q = b2 → x ≠ j ∧ x ≠ i := by
    intro b2 hb2 hbne x hxS q hq hqb
    constructor
    · intro e
      subst e
      rw [hq] at hqj
      injection hqj with he
      subst he
      exact hbne (hqb ▸ hqjb ▸ rfl)
    · intro e
      subst e
      rw [hq] at hqi
      injection hqi with he
      subst he
      exact hbne (hqb ▸ hqib ▸ rfl)
  constructor
  case nxLen => rw [List.length_set]; exact h.nxLen
  case sizePow => exact h.sizePow
  case maskEq => exact h.maskEq
  case chains =>
    intro b2 hb2
    by_cases hbb : b2 = b
    · subst hbb
      refine ⟨l1p ++ j :: l2, hnewchain, ?_⟩
      intro x hx
      obtain ⟨hxold, hxne⟩ := hmemnew x hx
      obtain ⟨hxS, q, hq, hqb⟩ := hlmem x hxold
      exact ⟨Finset.mem_erase.mpr ⟨hxne, hxS⟩, q, hq, hqb⟩
    · obtain ⟨lb, hlb, hlbmem⟩ := h.chains b2 hb2
      have hxne : ∀ x ∈ lb, x ≠ j ∧ x ≠ i := by
        intro x hx
        obtain ⟨hxS, q, hq, hqb⟩ := hlbmem x hx
        exact hstable b2 hb2 hbb x hxS q hq hqb
      refine ⟨lb, ?_, ?_⟩
      · refine hlb.stable ?_
        intro x hx
        exact List.getElem?_set_ne (fun e => (hxne x hx).1 e.symm)
      · intro x hx
        obtain ⟨hxS, q, hq, hqb⟩ := hlbmem x hx
        exact ⟨Finset.mem_erase.mpr ⟨(hxne x hx).2, hxS⟩, q, hq, hqb⟩
  case cover =>
    intro x hx
    obtain ⟨hxne, hxS⟩ := Finset.mem_erase.mp hx
    obtain ⟨q, hq, lc, hlc, hxlc⟩ := h.cover x hxS
    by_cases hqb : bucketOf mask q = b
    · rw [hqb] at hlc
      have hlceq : lc = l1p ++ j :: i :: l2 := IsChain.deterministic hlc hl
      refine ⟨q, hq, l1p ++ j :: l2, by rw [hqb]; exact hnewchain, ?_⟩
      rw [hlceq] at hxlc
      rcases List.mem_append.mp hxlc with hx1 | hx2
      · exact List.mem_append_left _ hx1
      · rcases List.mem_cons.mp hx2 with rfl | hx3
        · exact List.mem_append_right _ (List.mem_cons_self x l2)
        · rcases List.mem_cons.mp hx3 with rfl | hx4
          · exact absurd rfl hxne
          · exact List.mem_append_right _ (List.mem_cons_of_mem j hx4)
    · refine ⟨q, hq, lc, ?_, hxlc⟩
      refine hlc.stable ?_
      intro y hy
      obtain ⟨ly, hly, hlymem⟩ := h.chains (bucketOf mask q)
        (bucketOf_lt h.sizePow h.maskEq q)
      have hlceq : lc = ly := IsChain.deterministic hlc hly
      subst hlceq
      obtain ⟨hyS, qy, hqy, hqyb⟩ := hlymem y hy
      exact List.getElem?_set_ne
        (fun e => (hstable (bucketOf mask q) (bucketOf_lt h.sizePow h.maskEq q) hqb y hyS qy hqy hqyb).1 e.symm)

/-- A chain on a nonempty list starts at its first element. -/
theorem IsChain.head_eq {next : List (Option Nat)} {o : Option Nat} {a : Nat}
    {l : List Nat} (h : IsChain next o (a :: l)) : o = some a := by
  cases h
  rfl

/-- Truncating the dense store and link array beyond every covered index
preserves table well-formedness. -/
theorem TableWF.truncate {mask : Nat} {pairs : List (Nat × Nat)}
    {t nx : List (Option Nat)} {S : Finset Nat} (h : TableWF mask pairs t nx S)
    (n : Nat) (hS : ∀ x ∈ S, x < n) (hn : n ≤ pairs.length) :
    TableWF mask (pairs.take n) t (nx.take n) S := by
  have hgetp : ∀ x ∈ S, (pairs.take n)[x]? = pairs[x]? :=
    fun x hx => List.getElem?_take_of_lt (hS x hx)
  have hgetn : ∀ x ∈ S, (nx.take n)[x]? = nx[x]? :=
    fun x hx => List.getElem?_take_of_lt (hS x hx)
  constructor
  case nxLen =>
    rw [List.length_take, List.length_take, h.nxLen]
  case sizePow => exact h.sizePow
  case maskEq => exact h.maskEq
  case chains =>
    intro b hb
    obtain ⟨l, hl, hlmem⟩ := h.chains b hb
    refine ⟨l, hl.stable fun x hx => hgetn x (hlmem x hx).1, ?_⟩
    intro x hx
    obtain ⟨hxS, q, hq, hqb⟩ := hlmem x hx
    exact ⟨hxS, q, by rw [hgetp x hxS]; exact hq, hqb⟩
  case cover =>
    intro x hx
    obtain ⟨q, hq, lc, hlc, hxlc⟩ := h.cover x hx
    obtain ⟨l2, hl2, hl2mem, _⟩ := h.chain_at (bucketOf_lt h.sizePow h.maskEq q)
    have hll2 : lc = l2 := IsChain.deterministic hlc hl2
    subst hll2
    refine ⟨q, by rw [hgetp x hx]; exact hq, lc, ?_, hxlc⟩
    exact hlc.stable fun y hy => hgetn y (hl2mem y hy).1

/-- The predecessor search of the compaction retarget step finds the chain
entry linking to the target. -/
theorem chainFindPrevOf_spec {nx : List (Option Nat)} {target : Nat} :
    ∀ (m1 : List Nat) (head : Option Nat) (m2 : List Nat),
      IsChain nx head (m1 ++ target :: m2) →
      (m1 ++ target :: m2).Nodup →
      m1 ≠ [] →
      ∀ fuel, m1.length ≤ fuel →
        ∃ j m1p, m1 = m1p ++ [j] ∧ nx[j]? = some (some target) ∧
          chainFindPrevOf nx target fuel head = some j := by
  intro m1
  induction m1 with
  | nil =>
    intro _ _ _ _ hne
    exact absurd rfl hne
  | cons a m1t ih =>
    intro head m2 h hnd _ fuel hfuel
    cases h with
    | cons hnxa hca =>
      match fuel, hfuel with
      | f + 1, hfuel =>
        rcases m1t with _ | ⟨b, rest⟩
        · cases hca with
          | cons hnxt hct =>
            have hcond : nx[a]?.join = some target := by rw [hnxa]; rfl
            refine ⟨a, [], rfl, by rw [hnxa], ?_⟩
            simp only [chainFindPrevOf, if_pos hcond]
        · have ho : _ = some b := hca.head_eq
          have hnd2 := List.Nodup.of_cons (l := (b :: rest) ++ target :: m2)
            (by simpa using hnd)
          have hcond : ¬ nx[a]?.join = some target := by
            rw [hnxa, ho]
            intro e
            injection e with e2
            have hbnot : b ∉ rest ++ target :: m2 :=
              (List.nodup_cons.mp (by simpa using hnd2)).1
            refine hbnot ?_
            rw [e2]
            exact List.mem_append_right rest (List.mem_cons_self target m2)
          obtain ⟨j, m1p, hdec, hnj, hwalk⟩ := ih _ m2 hca hnd2
            (by simp) f (by simp only [List.length_cons] at hfuel ⊢; omega)
          refine ⟨j, a :: m1p, (by rw [hdec]; rfl), hnj, ?_⟩
          simp only [chainFindPrevOf, if_neg hcond]
          have hjoin : nx[a]?.join = some b := by rw [hnxa, ho]; rfl
          rw [hjoin]
          rw [ho] at hwalk
          exact hwalk

/-- Relocating the chain head record `n` to the fresh slot `i`: when `n`
is the bucket head, pointing the bucket at `i` and giving `i` the link of
`n` reproduces the chain with `n` replaced by `i`. -/
theorem chain_replace_head {nx : List (Option Nat)} {n i : Nat} {o_n : Option Nat}
    {m2 : List Nat} (hn : nx[n]? = some o_n) (hilt : i < nx.length)
    (h : IsChain nx (some n) (n :: m2)) (hi : i ∉ n :: m2) :
    IsChain (nx.set i o_n) (some i) (i :: m2) := by
  cases h with
  | cons hnxn hc =>
    rw [hn] at hnxn
    injection hnxn with ho
    subst ho
    refine IsChain.cons (List.getElem?_set_eq_of_lt o_n hilt) ?_
    refine hc.stable ?_
    intro x hx
    refine List.getElem?_set_ne ?_
    intro e
    refine hi ?_
    rw [e]
    exact List.mem_cons_of_mem n hx

/-- Relocating a mid-chain record `n` to the fresh slot `i`: retargeting
the predecessor `j` to `i` and giving `i` the link of `n` reproduces the
chain with `n` replaced by `i`. -/
theorem chain_replace_mid {nx : List (Option Nat)} {n i : Nat} {o_n : Option Nat}
    (hn : nx[n]? = some o_n) (hilt : i < nx.length) :
    ∀ (m1p : List Nat) (j : Nat) (head : Option Nat) (m2 : List Nat),
      IsChain nx head ((m1p ++ [j]) ++ n :: m2) →
      ((m1p ++ [j]) ++ n :: m2).Nodup →
      i ∉ (m1p ++ [j]) ++ n :: m2 →
      IsChain ((nx.set j (some i)).set i o_n) head ((m1p ++ [j]) ++ i :: m2) := by
  intro m1p
  induction m1p with
  | nil =>
    intro j head m2 h hnd hi
    cases h with
    | cons hnxj hcj =>
      have hijne : i ≠ j := by
        intro e
        refine hi ?_
        rw [e]
        exact List.mem_append_left _ (by simp)
      cases hcj with
      | cons hnxn2 hcn =>
        rw [hn] at hnxn2
        injection hnxn2 with ho
        subst ho
        have hinner : IsChain ((nx.set j (some i)).set i o_n) o_n m2 := by
          refine hcn.stable ?_
          intro x hx
          have hxj : j ≠ x := by
            intro e
            have hjnot : j ∉ n :: m2 := (List.nodup_cons.mp (by simpa using hnd)).1
            refine hjnot ?_
            rw [← e] at hx
            exact List.mem_cons_of_mem n hx
          have hxi : i ≠ x := by
            intro e
            refine hi ?_
            rw [e]
            exact List.mem_append_right _ (List.mem_cons_of_mem n hx)
          rw [List.getElem?_set_ne hxi, List.getElem?_set_ne hxj]
        have hstep2 : IsChain ((nx.set j (some i)).set i o_n) (some i) (i :: m2) := by
          refine IsChain.cons ?_ hinner
          rw [List.getElem?_set_eq_of_lt o_n (by rw [List.length_set]; exact hilt)]
        refine IsChain.cons ?_ hstep2
        show ((nx.set j (some i)).set i o_n)[j]? = some (some i)
        rw [List.getElem?_set_ne hijne,
          List.getElem?_set_eq_of_lt (some i) (List.getElem?_eq_some.mp hnxj).1]
  | cons a m1t ih =>
    intro j head m2 h hnd hi
    cases h with
    | cons hnxa hca =>
      have hnd2 : ((m1t ++ [j]) ++ n :: m2).Nodup := List.Nodup.of_cons (by simpa using hnd)
      have hanot : a ∉ (m1t ++ [j]) ++ n :: m2 := (List.nodup_cons.mp (by simpa using hnd)).1
      have hja : j ≠ a := by
        intro e
        refine hanot ?_
        rw [← e]
        exact List.mem_append_left _ (List.mem_append_right _ (by simp))
      have hia : i ≠ a := by
        intro e
        refine hi ?_
        rw [e]
        exact List.mem_cons_self a _
      refine IsChain.cons ?_ (ih j _ m2 hca hnd2 ?_)
      · show ((nx.set j (some i)).set i o_n)[a]? = some _
        rw [List.getElem?_set_ne hia, List.getElem?_set_ne hja]
        exact hnxa
      · intro hmem
        exact hi (List.mem_cons_of_mem a hmem)

/-- Core of the compaction argument: given the bucket chain of the last
record `n` rewritten with `n` replaced by the vacated slot `i`, and all
other link entries untouched, moving the record into slot `i` yields a
well-formed table covering `i` instead of `n`. -/
theorem TableWF.compact_core {mask : Nat} {pairs : List (Nat × Nat)}
    {t nx t3 nx3u : List (Option Nat)} {S : Finset Nat} {n i : Nat} {pLast : Nat × Nat}
    {m1 m2 : List Nat}
    (h : TableWF mask pairs t nx S)
    (hlen : pairs.length = n + 1)
    (hnS : n ∈ S) (hiS : i ∉ S) (hilt : i < n)
    (hpl : pairs[n]? = some pLast)
    (hold : IsChain nx (t[bucketOf mask pLast]?.join) (m1 ++ n :: m2))
    (hchainb2 : IsChain nx3u (t3[bucketOf mask pLast]?.join) (m1 ++ i :: m2))
    (htother : ∀ b2x, b2x ≠ bucketOf mask pLast → t3[b2x]? = t[b2x]?)
    (htlen : t3.length = t.length)
    (hnxout : ∀ x, x ≠ i → x ∉ m1 ++ n :: m2 → nx3u[x]? = nx[x]?)
    (hnxlen : nx3u.length = nx.length) :
    TableWF mask (pairs.set i pLast) t3 nx3u (insert i (S.erase n)) := by
  have hb2 : bucketOf mask pLast < t.length := bucketOf_lt h.sizePow h.maskEq pLast
  obtain ⟨lc, hlc, hlcmem, hlccov⟩ := h.chain_at hb2
  have hleq : lc = m1 ++ n :: m2 := IsChain.deterministic hlc hold
  subst hleq
  have hnd := hold.nodup
  have hnotin : i ∉ m1 ++ n :: m2 := fun hmem => hiS (hlcmem i hmem).1
  have hnm1 : n ∉ m1 := by
    intro hmem
    obtain ⟨_, _, hdisj⟩ := List.nodup_append.mp hnd
    exact hdisj hmem (List.mem_cons_self n m2)
  have hnm2 : n ∉ m2 :=
    (List.nodup_cons.mp (List.Nodup.of_append_right hnd)).1
  have hnewmem : ∀ x ∈ m1 ++ i :: m2,
      x = i ∨ (x ∈ m1 ++ n :: m2 ∧ x ≠ n ∧ x ≠ i) := by
    intro x hx
    rcases List.mem_append.mp hx with hx1 | hx2
    · refine Or.inr ⟨List.mem_append_left _ hx1, ?_, ?_⟩
      · intro e
        rw [e] at hx1
        exact hnm1 hx1
      · intro e
        rw [e] at hx1
        exact hnotin (List.mem_append_left _ hx1)
    · rcases List.mem_cons.mp hx2 with rfl | hx3
      · exact Or.inl rfl
      · refine Or.inr ⟨List.mem_append_right _ (List.mem_cons_of_mem n hx3), ?_, ?_⟩
        · intro e
          rw [e] at hx3
          exact hnm2 hx3
        · intro e
          rw [e] at hx3
          exact hnotin (List.mem_append_right _ (List.mem_cons_of_mem n hx3))
  have hnewmem2 : ∀ x ∈ m1 ++ n :: m2, x ≠ n → x ∈ m1 ++ i :: m2 := by
    intro x hx hxn
    rcases List.mem_append.mp hx with hx1 | hx2
    · exact List.mem_append_left _ hx1
    · rcases List.mem_cons.mp hx2 with rfl | hx3
      · exact absurd rfl hxn
      · exact List.mem_append_right _ (List.mem_cons_of_mem i hx3)
  have hiplen : i < pairs.length := by omega
  have hgetpi : (pairs.set i pLast)[i]? = some pLast :=
    List.getElem?_set_eq_of_lt pLast hiplen
  have hgetpx : ∀ x, x ≠ i → (pairs.set i pLast)[x]? = pairs[x]? := by
    intro x hxi
    exact List.getElem?_set_ne (fun e => hxi e.symm)
  have hSerase_lt : ∀ x ∈ insert i (S.erase n), x < n := by
    intro x hx
    rcases Finset.mem_insert.mp hx with rfl | hx2
    · exact hilt
    · obtain ⟨hxn, hxS⟩ := Finset.mem_erase.mp hx2
      have := h.mem_length x hxS
      omega
  have hnbucket : ∀ x ∈ S, ∀ q, pairs[x]? = some q →
      bucketOf mask q ≠ bucketOf mask pLast → x ≠ n := by
    intro x _ q hq hqb e
    subst e
    rw [hpl] at hq
    injection hq with he
    subst he
    exact hqb rfl
  constructor
  case nxLen =>
    rw [hnxlen, h.nxLen, List.length_set]
  case sizePow =>
    rw [htlen]
    exact h.sizePow
  case maskEq =>
    rw [htlen]
    exact h.maskEq
  case chains =>
    intro b hb
    rw [htlen] at hb
    by_cases hbb : b = bucketOf mask pLast
    · subst hbb
      refine ⟨m1 ++ i :: m2, hchainb2, ?_⟩
      intro x hx
      rcases hnewmem x hx with rfl | ⟨hxold, hxn, hxi⟩
      · exact ⟨Finset.mem_insert_self x _, pLast, hgetpi, rfl⟩
      · obtain ⟨hxS, q, hq, hqb⟩ := hlcmem x hxold
        refine ⟨Finset.mem_insert_of_mem (Finset.mem_erase.mpr ⟨hxn, hxS⟩), q, ?_, hqb⟩
        rw [hgetpx x hxi]
        exact hq
    · obtain ⟨lb, hlb, hlbmem⟩ := h.chains b hb
      have hfacts : ∀ x ∈ lb, x ∈ S ∧ x ≠ i ∧ x ≠ n ∧ x ∉ m1 ++ n :: m2 ∧
          ∃ q, pairs[x]? = some q ∧ bucketOf mask q = b := by
        intro x hx
        obtain ⟨hxS, q, hq, hqb⟩ := hlbmem x hx
        have hxi : x ≠ i := fun e => hiS (e ▸ hxS)
        have hxbne : bucketOf mask q ≠ bucketOf mask pLast := by
          rw [hqb]
          exact hbb
        have hxn : x ≠ n := hnbucket x hxS q hq hxbne
        have hxnotin : x ∉ m1 ++ n :: m2 := by
          intro hmem
          obtain ⟨_, q2, hq2, hq2b⟩ := hlcmem x hmem
          rw [hq] at hq2
          injection hq2 with he
          subst he
          refine hbb ?_
          rw [← hqb, hq2b]
        exact ⟨hxS, hxi, hxn, hxnotin, q, hq, hqb⟩
      refine ⟨lb, ?_, ?_⟩
      · have hhead : t3[b]?.join = t[b]?.join := by rw [htother b hbb]
        rw [hhead]
        refine hlb.stable ?_
        intro x hx
        obtain ⟨_, hxi, _, hxnotin, _⟩ := hfacts x hx
        exact hnxout x hxi hxnotin
      · intro x hx
        obtain ⟨hxS, hxi, hxn, _, q, hq, hqb⟩ := hfacts x hx
        refine ⟨Finset.mem_insert_of_mem (Finset.mem_erase.mpr ⟨hxn, hxS⟩), q, ?_, hqb⟩
        rw [hgetpx x hxi]
        exact hq
  case cover =>
    intro x hx
    rcases Finset.mem_insert.mp hx with he | hx2
    · subst he
      refine ⟨pLast, hgetpi, m1 ++ x :: m2, hchainb2, ?_⟩
      exact List.mem_append_right _ (List.mem_cons_self x m2)
    · obtain ⟨hxn, hxS⟩ := Finset.mem_erase.mp hx2
      have hxi : x ≠ i := fun e => hiS (e ▸ hxS)
      obtain ⟨q, hq, lc2, hlc2, hxlc2⟩ := h.cover x hxS
      by_cases hqb : bucketOf mask q = bucketOf mask pLast
      · rw [hqb] at hlc2
        have hlc2eq : lc2 = m1 ++ n :: m2 := IsChain.deterministic hlc2 hold
        subst hlc2eq
        refine ⟨q, ?_, m1 ++ i :: m2, ?_, hnewmem2 x hxlc2 hxn⟩
        · rw [hgetpx x hxi]
          exact hq
        · rw [hqb]
          exact hchainb2
      · obtain ⟨lb, hlb, hlbmem⟩ := h.chains (bucketOf mask q)
          (bucketOf_lt h.sizePow h.maskEq q)
        have hlc2eq : lc2 = lb := IsChain.deterministic hlc2 hlb
        subst hlc2eq
        refine ⟨q, ?_, lc2, ?_, hxlc2⟩
        · rw [hgetpx x hxi]
          exact hq
        · have hhead : t3[bucketOf mask q]?.join = t[bucketOf mask q]?.join := by
            rw [htother _ hqb]
          rw [hhead]
          refine hlb.stable ?_
          intro y hy
          obtain ⟨hyS, qy, hqy, hqyb⟩ := hlbmem y hy
          have hyi : y ≠ i := fun e => hiS (e ▸ hyS)
          have hynotin : y ∉ m1 ++ n :: m2 := by
            intro hmem
            obtain ⟨_, q2, hq2, hq2b⟩ := hlcmem y hmem
            rw [hqy] at hq2
            injection hq2 with he
            subst he
            refine hqb ?_
            rw [← hqyb, hq2b]
          exact hnxout y hyi hynotin

/-- Compaction step of `removePair`: relocating the last record `n` into
the vacated slot `i` — retargeting the unique chain reference to `n`,
giving the moved record its old link, and truncating — preserves table
well-formedness, with `i` covered instead of `n`. -/
theorem TableWF.compact {mask : Nat} {pairs : List (Nat × Nat)}
    {t nx : List (Option Nat)} {S : Finset Nat} {n i : Nat} {pLast : Nat × Nat}
    (h : TableWF mask pairs t nx S)
    (hlen : pairs.length = n + 1)
    (hnS : n ∈ S) (hiS : i ∉ S) (hilt : i < n)
    (hpl : pairs[n]? = some pLast)
    (fuel : Nat) (hfuel : n + 1 ≤ fuel) :
    TableWF mask ((pairs.set i pLast).take n)
      (retarget t nx (bucketOf mask pLast) n i fuel).1
      (((retarget t nx (bucketOf mask pLast) n i fuel).2.set i (nx[n]?.join)).take n)
      (insert i (S.erase n)) := by
  have hb2 : bucketOf mask pLast < t.length := bucketOf_lt h.sizePow h.maskEq pLast
  obtain ⟨l, hl, hlmem, hlcov⟩ := h.chain_at hb2
  have hnl : n ∈ l := hlcov n hnS pLast hpl rfl
  obtain ⟨m1, m2, hldec⟩ := List.append_of_mem hnl
  subst hldec
  obtain ⟨o_n, hon⟩ := hl.mem_next hnl
  have hjoin : nx[n]?.join = o_n := by rw [hon]; rfl
  have hnd := hl.nodup
  have hnotin : i ∉ m1 ++ n :: m2 := fun hmem => hiS (hlmem i hmem).1
  have hnxlen2 : nx.length = n + 1 := by rw [h.nxLen, hlen]
  have hiltnx : i < nx.length := by omega
  have hS_lt : ∀ x ∈ insert i (S.erase n), x < n := by
    intro x hx
    rcases Finset.mem_insert.mp hx with he | hx2
    · rw [he]
      exact hilt
    · obtain ⟨hxn, hxS⟩ := Finset.mem_erase.mp hx2
      have hxlt := h.mem_length x hxS
      have hne : x ≠ n := hxn
      omega
  have hnlen : n ≤ (pairs.set i pLast).length := by
    rw [List.length_set]
    omega
  rcases m1 with _ | ⟨a, m1t⟩
  · have hhead : t[bucketOf mask pLast]?.join = some n := hl.head_eq
    have hret : retarget t nx (bucketOf mask pLast) n i fuel
        = (t.set (bucketOf mask pLast) (some i), nx) := by
      unfold retarget
      rw [if_pos hhead]
    rw [hret, hjoin]
    show TableWF mask ((pairs.set i pLast).take n)
      (t.set (bucketOf mask pLast) (some i)) ((nx.set i o_n).take n)
      (insert i (S.erase n))
    refine TableWF.truncate ?_ n hS_lt hnlen
    have hl2 := hl
    rw [hhead] at hl2
    refine h.compact_core hlen hnS hiS hilt hpl hl ?_ ?_ ?_ ?_ ?_
    · rw [List.getElem?_set_eq_of_lt (some i) hb2]
      show IsChain (nx.set i o_n) (some i) ([] ++ i :: m2)
      exact chain_replace_head hon hiltnx hl2 hnotin
    · intro b2x hb2x
      exact List.getElem?_set_ne (fun e => hb2x e.symm)
    · rw [List.length_set]
    · intro x hxi _
      exact List.getElem?_set_ne (fun e => hxi e.symm)
    · rw [List.length_set]
  · have hheadeq : t[bucketOf mask pLast]?.join = some a := hl.head_eq
    have hanotmem : a ∉ m1t ++ n :: m2 := (List.nodup_cons.mp (by simpa using hnd)).1
    have hanotn : a ≠ n := by
      intro e
      refine hanotmem ?_
      rw [e]
      exact List.mem_append_right _ (List.mem_cons_self n m2)
    have hcond : ¬ t[bucketOf mask pLast]?.join = some n := by
      rw [hheadeq]
      intro e
      injection e with e2
      exact hanotn e2
    have hm1fuel : (a :: m1t).length ≤ fuel := by
      have hlenle := hl.length_le
      simp only [List.length_append, List.length_cons] at hlenle ⊢
      omega
    obtain ⟨j, m1p, hdec, hnj, hwalk⟩ :=
      chainFindPrevOf_spec (a :: m1t) _ m2 hl hnd (by simp) fuel hm1fuel
    have hret : retarget t nx (bucketOf mask pLast) n i fuel
        = (t, nx.set j (some i)) := by
      unfold retarget
      rw [if_neg hcond, hwalk]
    rw [hret, hjoin]
    show TableWF mask ((pairs.set i pLast).take n) t
      (((nx.set j (some i)).set i o_n).take n) (insert i (S.erase n))
    refine TableWF.truncate ?_ n hS_lt hnlen
    have hjmem : j ∈ (a :: m1t) ++ n :: m2 := by
      refine List.mem_append_left _ ?_
      rw [hdec]
      exact List.mem_append_right _ (List.mem_cons_self j [])
    refine h.compact_core hlen hnS hiS hilt hpl hl ?_ (fun _ _ => rfl) rfl ?_ ?_
    · rw [hdec] at hl hnd hnotin
      have hrep := chain_replace_mid hon hiltnx m1p j _ m2 hl hnd hnotin
      rw [hdec]
      exact hrep
    · intro x hxi hxnot
      have hxj : j ≠ x := by
        intro e
        rw [e] at hjmem
        exact hxnot hjmem
      rw [List.getElem?_set_ne (fun e => hxi e.symm), List.getElem?_set_ne hxj]
    · rw [List.length_set, List.length_set]

/-- Sorting is idempotent. -/
theorem sortIDs_idem (a b : Nat) :
    sortIDs (sortIDs a b).1 (sortIDs a b).2 = sortIDs a b := by
  unfold sortIDs
  by_cases h : a > b
  · rw [if_pos h]
    simp only
    rw [if_neg (by omega)]
  · rw [if_neg h]
    simp only
    rw [if_neg (by omega)]

/-- The intended lookup is insensitive to pre-sorting its arguments. -/
theorem findPairIntended_sorted (s : PMState) (a b : Nat) :
    findPairIntended s (sortIDs a b).1 (sortIDs a b).2 = findPairIntended s a b := by
  unfold findPairIntended
  rw [sortIDs_idem]

/-- The intended lookup on an unallocated table. -/
theorem findPairIntended_none {s : PMState} (ht : s.mHashTable = none)
    (idA idB : Nat) : findPairIntended s idA idB = none := by
  unfold findPairIntended findPairWithHashValue
  rw [ht]

/-- The intended lookup on an allocated table is the chain walk of the
query's bucket. -/
theorem findPairIntended_table (s : PMState) (t : List (Option Nat))
    (ht : s.mHashTable = some t) (idA idB : Nat) :
    findPairIntended s idA idB
      = chainWalk s.mOverlappingPairs s.mOffsetNextPair
          (sortIDs idA idB).1 (sortIDs idA idB).2 (s.mNbOverlappingPairs + 1)
          (t[bucketOf s.mHashMask (sortIDs idA idB)]?.join) := by
  unfold findPairIntended findPairWithHashValue lookForAPair bucketOf
  rw [ht]

/-- Lookup correctness under the invariant: the intended find is sound
(a hit returns the slot of the normalized query pair) and complete (a
stored pair is found). -/
theorem findPairIntended_spec (s : PMState) (hWF : WF s) (idA idB : Nat) :
    (∀ i, findPairIntended s idA idB = some i →
        s.mOverlappingPairs[i]? = some (sortIDs idA idB)) ∧
    (sortIDs idA idB ∈ s.mOverlappingPairs → findPairIntended s idA idB ≠ none) := by
  constructor
  · intro i hfind
    cases ht : s.mHashTable with
    | none =>
      rw [findPairIntended_none ht] at hfind
      exact Option.noConfusion hfind
    | some t =>
      rw [findPairIntended_table s t ht] at hfind
      have hsound := chainWalk_sound _ _ _ hfind
      rw [hsound]
  · intro hmem hnone
    cases ht : s.mHashTable with
    | none =>
      have hempty := (hWF.tableNone ht).1
      rw [hempty] at hmem
      cases hmem
    | some t =>
      have htw := hWF.table t ht
      obtain ⟨i0, hi0lt, hi0⟩ := List.getElem_of_mem hmem
      have hi0get : s.mOverlappingPairs[i0]? = some (sortIDs idA idB) := by
        rw [List.getElem?_eq_getElem hi0lt, hi0]
      have hi0S : i0 ∈ Finset.range s.mOverlappingPairs.length :=
        Finset.mem_range.mpr hi0lt
      have hb := bucketOf_lt htw.sizePow htw.maskEq (sortIDs idA idB)
      obtain ⟨l, hl, hlmem, hlcov⟩ := htw.chain_at hb
      have hi0l : i0 ∈ l := hlcov i0 hi0S (sortIDs idA idB) hi0get rfl
      have hval : ∀ j ∈ l, j < s.mOverlappingPairs.length := fun j hj =>
        htw.mem_length j (hlmem j hj).1
      have hfuel : l.length ≤ s.mNbOverlappingPairs + 1 := by
        have hle := hl.length_le
        rw [htw.nxLen] at hle
        rw [hWF.countEq]
        omega
      have hwalk := @chainWalk_eq_find s.mOverlappingPairs s.mOffsetNextPair
        (sortIDs idA idB).1 (sortIDs idA idB).2 _ l hl hval
        (s.mNbOverlappingPairs + 1) hfuel
      rw [findPairIntended_table s t ht, hwalk] at hnone
      have hall := List.find?_eq_none.mp hnone i0 hi0l
      refine hall ?_
      rw [hi0get]
      simp

/-- The append step of `addPair` preserves the invariant: the new record
is linked at the head of its bucket chain. -/
theorem append_WF {s1 : PMState} (hWF1 : WF s1) {t1 : List (Option Nat)}
    (ht1 : s1.mHashTable = some t1) (p : Nat × Nat) :
    WF { s1 with
      mOverlappingPairs := s1.mOverlappingPairs ++ [p],
      mOffsetNextPair := s1.mOffsetNextPair ++ [t1[bucketOf s1.mHashMask p]?.join],
      mHashTable := some (t1.set (bucketOf s1.mHashMask p) (some s1.mNbOverlappingPairs)),
      mNbOverlappingPairs := s1.mNbOverlappingPairs + 1 } := by
  have htw := hWF1.table t1 ht1
  have hcnt := hWF1.countEq
  constructor
  · show s1.mNbOverlappingPairs + 1 = (s1.mOverlappingPairs ++ [p]).length
    simp [hcnt]
  · intro t2 ht2
    injection ht2 with ht2e
    subst ht2e
    show TableWF s1.mHashMask (s1.mOverlappingPairs ++ [p])
      (t1.set (bucketOf s1.mHashMask p) (some s1.mNbOverlappingPairs))
      (s1.mOffsetNextPair ++ [t1[bucketOf s1.mHashMask p]?.join])
      (Finset.range (s1.mOverlappingPairs ++ [p]).length)
    have hrange : Finset.range ((s1.mOverlappingPairs ++ [p]).length)
        = insert s1.mOverlappingPairs.length
            (Finset.range s1.mOverlappingPairs.length) := by
      simp [Finset.range_succ]
    rw [hrange, hcnt]
    refine htw.insert_general (by simp) (List.getElem?_concat_length _ _)
      (fun j hj => List.getElem?_append_left (Finset.mem_range.mp hj))
      (by simp [htw.nxLen]) ?_
      (fun j hj => List.getElem?_append_left
        (by rw [htw.nxLen]; exact Finset.mem_range.mp hj))
    rw [← htw.nxLen]
    exact List.getElem?_concat_length _ _
  · intro h2
    exact Option.noConfusion h2

/-- The growth-and-rehash step of `addPair` produces a well-formed
allocated state holding the same records. -/
theorem grow_spec (s : PMState) (hWF : WF s)
    (hcount : s.mNbOverlappingPairs < 2 ^ 32) :
    WF (reallocatePairs { s with
      mNbElementsHashTable := computeNextPowerOfTwo s.mNbOverlappingPairs,
      mHashMask := computeNextPowerOfTwo s.mNbOverlappingPairs - 1 }) ∧
    ∃ t1, (reallocatePairs { s with
      mNbElementsHashTable := computeNextPowerOfTwo s.mNbOverlappingPairs,
      mHashMask := computeNextPowerOfTwo s.mNbOverlappingPairs - 1 }).mHashTable
        = some t1 := by
  have hpow : ∃ k, computeNextPowerOfTwo s.mNbOverlappingPairs = 2 ^ k :=
    ⟨Nat.size s.mNbOverlappingPairs, computeNextPowerOfTwo_eq _ hcount⟩
  obtain ⟨hrw, _, _⟩ := rehashAll_spec (computeNextPowerOfTwo s.mNbOverlappingPairs - 1)
    (computeNextPowerOfTwo s.mNbOverlappingPairs) s.mOverlappingPairs hpow rfl
  refine ⟨?_, ⟨_, rfl⟩⟩
  constructor
  · exact hWF.countEq
  · intro t2 ht2
    injection ht2 with ht2e
    subst ht2e
    exact hrw
  · intro h2
    exact Option.noConfusion h2

/-- Behaviour of the modelled `addPair`: on a duplicate it returns the
existing record untouched; on a new pair it appends the normalized record
and preserves the invariant. -/
theorem addPair_spec (s : PMState) (hWF : WF s) (idA idB : Nat)
    (hcount : s.mNbOverlappingPairs < 2 ^ 32) :
    (∀ i, findPairIntended s idA idB = some i → addPair s idA idB = (s, some i)) ∧
    (findPairIntended s idA idB = none →
      WF (addPair s idA idB).1 ∧
      (addPair s idA idB).1.mOverlappingPairs
        = s.mOverlappingPairs ++ [sortIDs idA idB] ∧
      (addPair s idA idB).1.mNbOverlappingPairs = s.mNbOverlappingPairs + 1) := by
  constructor
  · intro i hfind
    have hfind2 : findPairIntended s (sortIDs idA idB).1 (sortIDs idA idB).2 = some i := by
      rw [findPairIntended_sorted]
      exact hfind
    simp only [addPair, hfind2]
  · intro hfind
    have hfind2 : findPairIntended s (sortIDs idA idB).1 (sortIDs idA idB).2 = none := by
      rw [findPairIntended_sorted]
      exact hfind
    by_cases hgrow : s.mNbOverlappingPairs ≥ s.mNbElementsHashTable ∨ s.mHashTable = none
    · obtain ⟨hWFg, t1, ht1⟩ := grow_spec s hWF hcount
      simp only [addPair, hfind2, if_pos hgrow]
      rw [ht1]
      exact ⟨append_WF hWFg ht1 (sortIDs idA idB), rfl, rfl⟩
    · have hnogrow := hgrow
      push_neg at hnogrow
      obtain ⟨hcaplt, htne⟩ := hnogrow
      obtain ⟨t1, ht1⟩ : ∃ t1, s.mHashTable = some t1 := by
        cases htb : s.mHashTable with
        | none => exact absurd htb htne
        | some t => exact ⟨t, rfl⟩
      simp only [addPair, hfind2, if_neg hgrow]
      rw [ht1]
      exact ⟨append_WF hWF ht1 (sortIDs idA idB), rfl, rfl⟩

/-- First-match computation of `find?` on a decomposed list. -/
theorem find?_first {p : Nat → Bool} {i : Nat} {l2 : List Nat} :
    ∀ l1 : List Nat, (∀ j ∈ l1, ¬ p j = true) → p i = true →
      (l1 ++ i :: l2).find? p = some i := by
  intro l1
  induction l1 with
  | nil =>
    intro _ hi
    exact List.find?_cons_of_pos _ hi
  | cons a l1t ih =>
    intro hno hi
    rw [List.cons_append, List.find?_cons_of_neg _ (hno a (List.mem_cons_self a l1t))]
    exact ih (fun j hj => hno j (List.mem_cons_of_mem a hj)) hi

/-- A list whose last slot holds `x` splits off that slot. -/
theorem list_decomp_last {α : Type} {l : List α} {n : Nat} {x : α}
    (h : l.length = n + 1) (hx : l[n]? = some x) : l = l.take n ++ [x] := by
  have h3 : l.drop n = l[n] :: l.drop (n + 1) := List.drop_eq_getElem_cons (by omega)
  have h4 : l.drop (n + 1) = [] := List.drop_eq_nil_of_le (by omega)
  obtain ⟨hlt, he⟩ := List.getElem?_eq_some.mp hx
  rw [h4, he] at h3
  calc l = l.take n ++ l.drop n := (List.take_append_drop n l).symm
    _ = l.take n ++ [x] := by rw [h3]

/-- A list splits at any valid slot. -/
theorem list_decomp_at {α : Type} {l : List α} {i : Nat} {q : α}
    (hq : l[i]? = some q) : l = l.take i ++ q :: l.drop (i + 1) := by
  obtain ⟨hlt, he⟩ := List.getElem?_eq_some.mp hq
  calc l = l.take i ++ l.drop i := (List.take_append_drop i l).symm
    _ = l.take i ++ q :: l.drop (i + 1) := by rw [List.drop_eq_getElem_cons hlt, he]

/-- Multiset accounting of the swap-with-last removal: overwriting slot `i`
with the last record and truncating removes exactly the record at `i`. -/
theorem set_take_multiset {α : Type} (l : List α) (n i : Nat) (q x : α)
    (hlen : l.length = n + 1) (hq : l[i]? = some q) (hx : l[n]? = some x)
    (hi : i < n) :
    (((l.set i x).take n : List α) : Multiset α) + {q} = (l : Multiset α) := by
  have hL : l = l.take n ++ [x] := list_decomp_last hlen hx
  have hLlen : (l.take n).length = n := by
    rw [List.length_take]
    omega
  have hLq : (l.take n)[i]? = some q := by
    rw [List.getElem?_take_of_lt hi]
    exact hq
  have hset : l.set i x = (l.take n).set i x ++ [x] := by
    calc l.set i x = (l.take n ++ [x]).set i x := by rw [← hL]
      _ = (l.take n).set i x ++ [x] := List.set_append_left _ x (by omega)
  have htake : (l.set i x).take n = (l.take n).set i x := by
    rw [hset]
    have hlen2 : ((l.take n).set i x).length = n := by
      rw [List.length_set]
      exact hLlen
    calc ((l.take n).set i x ++ [x]).take n
        = ((l.take n).set i x ++ [x]).take ((l.take n).set i x).length := by rw [hlen2]
      _ = (l.take n).set i x := List.take_left _ _
  have hdec : l.take n = (l.take n).take i ++ q :: (l.take n).drop (i + 1) :=
    list_decomp_at hLq
  have hseteq : (l.take n).set i x
      = (l.take n).take i ++ x :: (l.take n).drop (i + 1) := by
    have hilen : ((l.take n).take i).length = i := by
      rw [List.length_take, List.length_take]
      omega
    calc (l.take n).set i x
        = ((l.take n).take i ++ q :: (l.take n).drop (i + 1)).set i x := by rw [← hdec]
      _ = (l.take n).take i ++ (q :: (l.take n).drop (i + 1)).set 0 x := by
          rw [List.set_append_right _ x (by omega)]
          rw [hilen, Nat.sub_self]
      _ = (l.take n).take i ++ x :: (l.take n).drop (i + 1) := rfl
  rw [htake, hseteq]
  conv =>
    rhs
    rw [hL, hdec]
  simp only [← Multiset.cons_coe, ← Multiset.coe_add, List.append_assoc, List.cons_append,
    List.singleton_append]
  simp only [← Multiset.singleton_add]
  abel

/-- Truncation plus the split-off record, as multisets. -/
theorem take_last_multiset {α : Type} {l : List α} {n : Nat} {x : α}
    (h : l.length = n + 1) (hx : l[n]? = some x) :
    ((l.take n : List α) : Multiset α) + {x} = (l : Multiset α) := by
  conv =>
    rhs
    rw [list_decomp_last h hx]
  rw [← Multiset.coe_singleton x, Multiset.coe_add]

/-- Behaviour of the modelled `removePair`: removing a missing pair is a
no-op returning false; removing a present pair returns true, decrements
the count, removes exactly the normalized record from the dense store, and
preserves the invariant. -/
theorem removePair_spec (s : PMState) (hWF : WF s) (idA idB : Nat) :
    (findPairIntended s idA idB = none → removePair s idA idB = (s, false)) ∧
    (findPairIntended s idA idB ≠ none →
      (removePair s idA idB).2 = true ∧
      WF (removePair s idA idB).1 ∧
      (removePair s idA idB).1.mNbOverlappingPairs + 1 = s.mNbOverlappingPairs ∧
      ((removePair s idA idB).1.mOverlappingPairs : Multiset (Nat × Nat))
        + {sortIDs idA idB} = (s.mOverlappingPairs : Multiset (Nat × Nat))) := by
  cases ht : s.mHashTable with
  | none =>
    constructor
    · intro _
      simp only [removePair, ht]
    · intro hne
      exact absurd (findPairIntended_none ht idA idB) hne
  | some t =>
    have htw := hWF.table t ht
    have hcnt := hWF.countEq
    have hb := bucketOf_lt htw.sizePow htw.maskEq (sortIDs idA idB)
    obtain ⟨l, hl, hlmem, hlcov⟩ := htw.chain_at hb
    have hval : ∀ j ∈ l, j < s.mOverlappingPairs.length := fun j hj =>
      htw.mem_length j (hlmem j hj).1
    have hfuel : l.length ≤ s.mNbOverlappingPairs + 1 := by
      have hle := hl.length_le
      rw [htw.nxLen] at hle
      omega
    have hwalk := @chainWalk_eq_find s.mOverlappingPairs s.mOffsetNextPair
      (sortIDs idA idB).1 (sortIDs idA idB).2 _ l hl hval
      (s.mNbOverlappingPairs + 1) hfuel
    have hfindeq := findPairIntended_table s t ht idA idB
    rcases @chainFindPred_spec s.mOverlappingPairs s.mOffsetNextPair
        (sortIDs idA idB).1 (sortIDs idA idB).2 _ l hl hval
        (s.mNbOverlappingPairs + 1) hfuel none with
      ⟨hnone, hall⟩ | ⟨i, pr, l1, l2x, heq, hdecomp, hpi, hl1ne, hcase⟩
    · have hrm : removePair s idA idB = (s, false) := by
        simp only [removePair, ht, hnone]
      constructor
      · intro _
        exact hrm
      · intro hne
        refine absurd ?_ hne
        rw [hfindeq, hwalk]
        refine List.find?_eq_none.mpr ?_
        intro j hj hbeq
        exact hall j hj (by simpa using hbeq)
    · have hfindsome : findPairIntended s idA idB = some i := by
        rw [hfindeq, hwalk, hdecomp]
        refine find?_first l1 ?_ ?_
        · intro j hj hbeq
          exact hl1ne j hj (by simpa using hbeq)
        · simp only [beq_iff_eq]
          exact hpi
      have hq : s.mOverlappingPairs[i]? = some (sortIDs idA idB) := by
        rw [hpi]
      have hil : i ∈ l := by
        rw [hdecomp]
        exact List.mem_append_right _ (List.mem_cons_self i l2x)
      have hiS : i ∈ Finset.range s.mOverlappingPairs.length := (hlmem i hil).1
      have hilen : i < s.mOverlappingPairs.length := Finset.mem_range.mp hiS
      obtain ⟨o2, ho2⟩ := hl.mem_next hil
      have ho2join : s.mOffsetNextPair[i]?.join = o2 := by rw [ho2]; rfl
      have hlenpos : 1 ≤ s.mOverlappingPairs.length := by omega
      constructor
      · intro hf
        rw [hf] at hfindsome
        exact Option.noConfusion hfindsome
      · intro _
        have hsplice : (pr = none →
            TableWF s.mHashMask s.mOverlappingPairs
              (t.set (bucketOf s.mHashMask (sortIDs idA idB)) o2)
              s.mOffsetNextPair
              ((Finset.range s.mOverlappingPairs.length).erase i)) ∧
            (∀ j, pr = some j →
              TableWF s.mHashMask s.mOverlappingPairs t
                (s.mOffsetNextPair.set j o2)
                ((Finset.range s.mOverlappingPairs.length).erase i)) := by
          constructor
          · intro hprnone
            rcases hcase with ⟨hl1nil, _, hhead⟩ | ⟨j2, l1p, _, hprj, _⟩
            · exact htw.splice_head hb hhead ho2
            · rw [hprnone] at hprj
              exact Option.noConfusion hprj
          · intro j hprj
            rcases hcase with ⟨_, hprcontra, _⟩ | ⟨j2, l1p, hl1dec, hprj2, hnji⟩
            · rw [hprj] at hprcontra
              exact Option.noConfusion hprcontra
            · rw [hprj] at hprj2
              injection hprj2 with hj2e
              subst hj2e
              have hchain2 : IsChain s.mOffsetNextPair
                  (t[bucketOf s.mHashMask (sortIDs idA idB)]?.join)
                  ((l1p ++ [j]) ++ i :: l2x) := by
                rw [← hl1dec, ← hdecomp]
                exact hl
              rw [List.append_assoc, List.singleton_append] at hchain2
              exact htw.splice_pred hb hchain2 ho2
        have hcount1 : s.mOverlappingPairs.length = (s.mNbOverlappingPairs - 1) + 1 := by
          omega
        rcases pr with _ | j
        · have hspl := hsplice.1 rfl
          simp only [removePair, ht, heq]
          by_cases hlast : i = s.mNbOverlappingPairs - 1
          · rw [if_pos hlast]
            refine ⟨(by trivial), ⟨?_, ?_, ?_⟩, ?_, ?_⟩
            · show s.mNbOverlappingPairs - 1
                = (s.mOverlappingPairs.take (s.mNbOverlappingPairs - 1)).length
              simp only [List.length_take]
              omega
            · intro t2 ht2
              injection ht2 with ht2e
              subst ht2e
              rw [ho2join]
              have htr := hspl.truncate (s.mNbOverlappingPairs - 1)
                (by
                  intro x hx
                  obtain ⟨hxi, hxS⟩ := Finset.mem_erase.mp hx
                  have hxlt := Finset.mem_range.mp hxS
                  omega)
                (by omega)
              have hsetEq : (Finset.range s.mOverlappingPairs.length).erase i
                  = Finset.range
                      ((s.mOverlappingPairs.take (s.mNbOverlappingPairs - 1)).length) := by
                rw [hlast]
                have hlen3 : (s.mOverlappingPairs.take (s.mNbOverlappingPairs - 1)).length
                    = s.mNbOverlappingPairs - 1 := by
                  simp only [List.length_take]
                  omega
                rw [hlen3, hcount1, Finset.range_succ, Finset.erase_insert (by simp)]
              rw [← hsetEq]
              exact htr
            · intro h2
              exact Option.noConfusion h2
            · show s.mNbOverlappingPairs - 1 + 1 = s.mNbOverlappingPairs
              omega
            · show ((s.mOverlappingPairs.take (s.mNbOverlappingPairs - 1) : List (Nat × Nat))
                  : Multiset (Nat × Nat)) + {sortIDs idA idB}
                  = (s.mOverlappingPairs : Multiset (Nat × Nat))
              refine take_last_multiset hcount1 ?_
              rw [← hlast]
              exact hq
          · rw [if_neg hlast]
            obtain ⟨pLast, hpl⟩ : ∃ pLast,
                s.mOverlappingPairs[s.mNbOverlappingPairs - 1]? = some pLast :=
              ⟨_, List.getElem?_eq_getElem (by omega)⟩
            simp only [hpl]
            have hiltlast : i < s.mNbOverlappingPairs - 1 := by omega
            refine ⟨(by trivial), ⟨?_, ?_, ?_⟩, ?_, ?_⟩
            · show s.mNbOverlappingPairs - 1
                = ((s.mOverlappingPairs.set i pLast).take (s.mNbOverlappingPairs - 1)).length
              simp only [List.length_take, List.length_set]
              omega
            · intro t2 ht2
              injection ht2 with ht2e
              subst ht2e
              rw [ho2join]
              have hcomp := hspl.compact hcount1
                (Finset.mem_erase.mpr ⟨fun e => hlast e.symm, Finset.mem_range.mpr (by omega)⟩)
                (Finset.not_mem_erase i _) hiltlast hpl
                (s.mNbOverlappingPairs + 1) (by omega)
              have hsetEq : insert i
                  (((Finset.range s.mOverlappingPairs.length).erase i).erase
                    (s.mNbOverlappingPairs - 1))
                  = Finset.range
                      (((s.mOverlappingPairs.set i pLast).take
                        (s.mNbOverlappingPairs - 1)).length) := by
                rw [Finset.erase_right_comm]
                have h1 : (Finset.range s.mOverlappingPairs.length).erase
                    (s.mNbOverlappingPairs - 1) = Finset.range (s.mNbOverlappingPairs - 1) := by
                  rw [hcount1, Finset.range_succ, Finset.erase_insert (by simp)]
                have hlen3 : ((s.mOverlappingPairs.set i pLast).take
                    (s.mNbOverlappingPairs - 1)).length = s.mNbOverlappingPairs - 1 := by
                  simp only [List.length_take, List.length_set]
                  omega
                rw [h1, Finset.insert_erase (Finset.mem_range.mpr hiltlast), hlen3]
              rw [← hsetEq]
              exact hcomp
            · intro h2
              exact Option.noConfusion h2
            · show s.mNbOverlappingPairs - 1 + 1 = s.mNbOverlappingPairs
              omega
            · exact set_take_multiset s.mOverlappingPairs (s.mNbOverlappingPairs - 1) i
                (sortIDs idA idB) pLast hcount1 hq hpl hiltlast
        · have hspl := hsplice.2 j rfl
          simp only [removePair, ht, heq]
          by_cases hlast : i = s.mNbOverlappingPairs - 1
          · rw [if_pos hlast]
            refine ⟨(by trivial), ⟨?_, ?_, ?_⟩, ?_, ?_⟩
            · show s.mNbOverlappingPairs - 1
                = (s.mOverlappingPairs.take (s.mNbOverlappingPairs - 1)).length
              simp only [List.length_take]
              omega
            · intro t2 ht2
              injection ht2 with ht2e
              subst ht2e
              rw [ho2join]
              have htr := hspl.truncate (s.mNbOverlappingPairs - 1)
                (by
                  intro x hx
                  obtain ⟨hxi, hxS⟩ := Finset.mem_erase.mp hx
                  have hxlt := Finset.mem_range.mp hxS
                  omega)
                (by omega)
              have hsetEq : (Finset.range s.mOverlappingPairs.length).erase i
                  = Finset.range
                      ((s.mOverlappingPairs.take (s.mNbOverlappingPairs - 1)).length) := by
                rw [hlast]
                have hlen3 : (s.mOverlappingPairs.take (s.mNbOverlappingPairs - 1)).length
                    = s.mNbOverlappingPairs - 1 := by
                  simp only [List.length_take]
                  omega
                rw [hlen3, hcount1, Finset.range_succ, Finset.erase_insert (by simp)]
              rw [← hsetEq]
              exact htr
            · intro h2
              exact Option.noConfusion h2
            · show s.mNbOverlappingPairs - 1 + 1 = s.mNbOverlappingPairs
              omega
            · show ((s.mOverlappingPairs.take (s.mNbOverlappingPairs - 1) : List (Nat × Nat))
                  : Multiset (Nat × Nat)) + {sortIDs idA idB}
                  = (s.mOverlappingPairs : Multiset (Nat × Nat))
              refine take_last_multiset hcount1 ?_
              rw [← hlast]
              exact hq
          · rw [if_neg hlast]
            obtain ⟨pLast, hpl⟩ : ∃ pLast,
                s.mOverlappingPairs[s.mNbOverlappingPairs - 1]? = some pLast :=
              ⟨_, List.getElem?_eq_getElem (by omega)⟩
            simp only [hpl]
            have hiltlast : i < s.mNbOverlappingPairs - 1 := by omega
            refine ⟨(by trivial), ⟨?_, ?_, ?_⟩, ?_, ?_⟩
            · show s.mNbOverlappingPairs - 1
                = ((s.mOverlappingPairs.set i pLast).take (s.mNbOverlappingPairs - 1)).length
              simp only [List.length_take, List.length_set]
              omega
            · intro t2 ht2
              injection ht2 with ht2e
              subst ht2e
              rw [ho2join]
              have hcomp := hspl.compact hcount1
                (Finset.mem_erase.mpr ⟨fun e => hlast e.symm, Finset.mem_range.mpr (by omega)⟩)
                (Finset.not_mem_erase i _) hiltlast hpl
                (s.mNbOverlappingPairs + 1) (by omega)
              have hsetEq : insert i
                  (((Finset.range s.mOverlappingPairs.length).erase i).erase
                    (s.mNbOverlappingPairs - 1))
                  = Finset.range
                      (((s.mOverlappingPairs.set i pLast).take
                        (s.mNbOverlappingPairs - 1)).length) := by
                rw [Finset.erase_right_comm]
                have h1 : (Finset.range s.mOverlappingPairs.length).erase
                    (s.mNbOverlappingPairs - 1) = Finset.range (s.mNbOverlappingPairs - 1) := by
                  rw [hcount1, Finset.range_succ, Finset.erase_insert (by simp)]
                have hlen3 : ((s.mOverlappingPairs.set i pLast).take
                    (s.mNbOverlappingPairs - 1)).length = s.mNbOverlappingPairs - 1 := by
                  simp only [List.length_take, List.length_set]
                  omega
                rw [h1, Finset.insert_erase (Finset.mem_range.mpr hiltlast), hlen3]
              rw [← hsetEq]
              exact hcomp
            · intro h2
              exact Option.noConfusion h2
            · show s.mNbOverlappingPairs - 1 + 1 = s.mNbOverlappingPairs
              omega
            · exact set_take_multiset s.mOverlappingPairs (s.mNbOverlappingPairs - 1) i
                (sortIDs idA idB) pLast hcount1 hq hpl hiltlast

/-- A lookup in a manager with an empty dense store finds nothing. -/
theorem findPairIntended_empty (s : PMState) (hempty : s.mOverlappingPairs = [])
    (a b : Nat) : findPairIntended s a b = none := by
  cases ht : s.mHashTable with
  | none => exact findPairIntended_none ht a b
  | some t =>
    rw [findPairIntended_table s t ht, hempty]
    cases t[bucketOf s.mHashMask (sortIDs a b)]?.join with
    | none => rfl
    | some off => simp [chainWalk]

/-- Folding `addPair` over fresh unique pairs appends their normalized
records in order and keeps the manager well-formed. -/
theorem addAll_spec (M : List (Nat × Nat)) : ∀ (s : PMState), WF s →
    (M.map fun p => sortIDs p.1 p.2).Nodup →
    (∀ p ∈ M, sortIDs p.1 p.2 ∉ s.mOverlappingPairs) →
    s.mOverlappingPairs.length + M.length ≤ 2 ^ 32 →
    WF (M.foldl (fun s2 p => (addPair s2 p.1 p.2).1) s) ∧
    (M.foldl (fun s2 p => (addPair s2 p.1 p.2).1) s).mOverlappingPairs
      = s.mOverlappingPairs ++ (M.map fun p => sortIDs p.1 p.2) := by
  induction M with
  | nil =>
    intro s hWF _ _ _
    exact ⟨hWF, by simp⟩
  | cons p M2 ih =>
    intro s hWF hnd hnotmem hbound
    have hcount : s.mNbOverlappingPairs < 2 ^ 32 := by
      rw [hWF.countEq]
      simp only [List.length_cons] at hbound
      omega
    have hfind : findPairIntended s p.1 p.2 = none := by
      cases hf : findPairIntended s p.1 p.2 with
      | none => rfl
      | some i =>
        have hsound := (findPairIntended_spec s hWF p.1 p.2).1 i hf
        obtain ⟨hlt, he⟩ := List.getElem?_eq_some.mp hsound
        exact absurd (he ▸ List.getElem_mem hlt)
          (hnotmem p (List.mem_cons_self p M2))
    obtain ⟨hWF2, hpairs2, hcnt2⟩ := (addPair_spec s hWF p.1 p.2 hcount).2 hfind
    rw [List.foldl_cons]
    have hndtail : (M2.map fun q => sortIDs q.1 q.2).Nodup := by
      simp only [List.map_cons, List.nodup_cons] at hnd
      exact hnd.2
    have hheadnot : (sortIDs p.1 p.2) ∉ (M2.map fun q => sortIDs q.1 q.2) := by
      simp only [List.map_cons, List.nodup_cons] at hnd
      exact hnd.1
    obtain ⟨hWF3, hpairs3⟩ := ih (addPair s p.1 p.2).1 hWF2 hndtail
      (by
        intro q hq
        rw [hpairs2]
        intro hmemq
        rcases List.mem_append.mp hmemq with hmem1 | hmem2
        · exact hnotmem q (List.mem_cons_of_mem p hq) hmem1
        · have he := List.mem_singleton.mp hmem2
          refine hheadnot ?_
          rw [← he]
          exact List.mem_map_of_mem _ hq)
      (by
        rw [hpairs2]
        simp only [List.length_append, List.length_cons, List.length_nil,
          List.length_singleton] at hbound ⊢
        omega)
    refine ⟨hWF3, ?_⟩
    rw [hpairs3, hpairs2]
    simp

/-- Folding `removePair` over exactly the stored pairs empties the
store. -/
theorem removeAll_spec (M : List (Nat × Nat)) : ∀ (s : PMState), WF s →
    (s.mOverlappingPairs : Multiset (Nat × Nat))
      = ((M.map fun p => sortIDs p.1 p.2 : List (Nat × Nat)) : Multiset (Nat × Nat)) →
    (M.foldl (fun s2 p => (removePair s2 p.1 p.2).1) s).mNbOverlappingPairs = 0 ∧
    (M.foldl (fun s2 p => (removePair s2 p.1 p.2).1) s).mOverlappingPairs = [] := by
  induction M with
  | nil =>
    intro s hWF hmult
    have hempty : s.mOverlappingPairs = [] := by
      simpa using hmult
    refine ⟨?_, hempty⟩
    have hc := hWF.countEq
    rw [hempty] at hc
    simpa using hc
  | cons p M2 ih =>
    intro s hWF hmult
    have hmem : sortIDs p.1 p.2 ∈ s.mOverlappingPairs := by
      rw [← Multiset.mem_coe, hmult]
      simp
    have hne : findPairIntended s p.1 p.2 ≠ none :=
      (findPairIntended_spec s hWF p.1 p.2).2 hmem
    obtain ⟨_, hWF2, hcnt2, hmult2⟩ := (removePair_spec s hWF p.1 p.2).2 hne
    rw [List.foldl_cons]
    refine ih (removePair s p.1 p.2).1 hWF2 ?_
    have hstep : ((removePair s p.1 p.2).1.mOverlappingPairs : Multiset (Nat × Nat))
          + {sortIDs p.1 p.2}
        = ((M2.map fun q => sortIDs q.1 q.2 : List (Nat × Nat)) : Multiset (Nat × Nat))
          + {sortIDs p.1 p.2} := by
      rw [hmult2, hmult]
      show (((p :: M2).map fun q => sortIDs q.1 q.2 : List (Nat × Nat))
          : Multiset (Nat × Nat)) = _
      rw [List.map_cons, ← Multiset.cons_coe, ← Multiset.singleton_add, add_comm]
    exact add_right_cancel hstep

/-- Claim C4: for every sequence of unique pairs of bodies with
pairwise-distinct IDs (below the 32-bit count limit), calling add for
each pair and then remove for each pair restores count == 0, and
afterwards the lookup the find path intends to perform returns
not-found for every one of those pairs. -/
theorem add_remove_round_trip (L : List (Nat × Nat))
    (hdist : ∀ p ∈ L, p.1 ≠ p.2)
    (huniq : (L.map fun p => sortIDs p.1 p.2).Nodup)
    (hlen : L.length < 2 ^ 32) :
    (L.foldl (fun s2 p => (removePair s2 p.1 p.2).1)
        (L.foldl (fun s2 p => (addPair s2 p.1 p.2).1) initState)).mNbOverlappingPairs
      = 0 ∧
    ∀ p ∈ L, findPairIntended
        (L.foldl (fun s2 p => (removePair s2 p.1 p.2).1)
          (L.foldl (fun s2 p => (addPair s2 p.1 p.2).1) initState)) p.1 p.2
      = none := by
  obtain ⟨hWF1, hpairs1⟩ := addAll_spec L initState WF_initState huniq
    (by
      intro q hq h
      simp [initState] at h)
    (by
      simp only [initState, List.length_nil, Nat.zero_add]
      omega)
  have hmult : ((L.foldl (fun s2 p => (addPair s2 p.1 p.2).1)
        initState).mOverlappingPairs : Multiset (Nat × Nat))
      = ((L.map fun p => sortIDs p.1 p.2 : List (Nat × Nat))
        : Multiset (Nat × Nat)) := by
    rw [hpairs1]
    simp [initState]
  obtain ⟨hcnt, hempty⟩ := removeAll_spec L _ hWF1 hmult
  exact ⟨hcnt, fun p _ => findPairIntended_empty _ hempty p.1 p.2⟩

/-- Concrete instance of the round trip: two pairs, one given in
reversed order, added then removed. -/
theorem add_remove_round_trip_witness :
    (∀ p ∈ [((1 : Nat), (2 : Nat)), (4, 3)], p.1 ≠ p.2) ∧
    (([((1 : Nat), (2 : Nat)), (4, 3)].map fun p => sortIDs p.1 p.2).Nodup) ∧
    ([((1 : Nat), (2 : Nat)), (4, 3)].length < 2 ^ 32) ∧
    (([((1 : Nat), (2 : Nat)), (4, 3)].foldl
        (fun s2 p => (removePair s2 p.1 p.2).1)
        ([((1 : Nat), (2 : Nat)), (4, 3)].foldl
          (fun s2 p => (addPair s2 p.1 p.2).1) initState)).mNbOverlappingPairs
      = 0 ∧
     ∀ p ∈ [((1 : Nat), (2 : Nat)), (4, 3)], findPairIntended
        ([((1 : Nat), (2 : Nat)), (4, 3)].foldl
          (fun s2 p => (removePair s2 p.1 p.2).1)
          ([((1 : Nat), (2 : Nat)), (4, 3)].foldl
            (fun s2 p => (addPair s2 p.1 p.2).1) initState)) p.1 p.2
      = none) :=
  ⟨by decide, by decide, by decide,
   add_remove_round_trip [(1, 2), (4, 3)] (by decide) (by decide) (by decide)⟩

end PairMgr
